import Mathlib

/-!
# File organizer (`main.go`): classification, stability wait, unique naming, safe move, traversal

A shallow embedding of the core of `main.go` together with the parts of the Go
standard library it calls (`strings`, `path/filepath` with Unix separators,
`filepath.WalkDir`).

* Go strings are lists of characters (`GoString`).  The separator `/` and the
  dot are ASCII, so scanning by character and scanning by byte agree.
* `filepath.Clean` is given by its effect on the elements of a path (the four
  rules of its documentation); `filepath.Rel` follows the loop of the library
  function on the cleaned strings.
* The file system is an explicit state (`FS`); results of system calls that the
  program does not control (a failing `rename`, the successive sizes of a file
  that somebody else is writing) are supplied by a `World`.
* The directory tree walked by `filepath.WalkDir` is the listing each
  `os.ReadDir` returns when the walk reads it (`Node`).
* In `organizeOnce` the call of `moveFileWithUniqueName` is a parameter: the walk
  is described for whatever that call does and returns, provided it returns.
* `watchDir` and `main` are not part of the development.
-/

/-- A Go string. -/
abbrev GoString := List Char

/-! ## Package `strings` -/

namespace strings

/-- Go `strings.HasPrefix`. -/
def HasPrefix (s pre : GoString) : Bool := pre.isPrefixOf s

/-- Go `unicode.ToLower`: ASCII is handled inline, every other rune goes through
the Unicode case tables, which are taken as the parameter `caseTable`. -/
def unicodeToLower (caseTable : Char → Char) (r : Char) : Char :=
  if r.toNat ≤ 127 then
    if 'A'.toNat ≤ r.toNat ∧ r.toNat ≤ 'Z'.toNat then Char.ofNat (r.toNat + 32) else r
  else caseTable r

/-- Go `strings.ToLower`: an ASCII-only string takes the fast path (returned
unchanged when it has no upper-case letter, otherwise shifted letter by letter),
any other string is mapped rune by rune with `unicode.ToLower`. -/
def ToLower (caseTable : Char → Char) (s : GoString) : GoString :=
  let isASCII := s.all (fun c => decide (c.toNat < 128))
  let hasUpper := s.any (fun c => decide ('A'.toNat ≤ c.toNat ∧ c.toNat ≤ 'Z'.toNat))
  if isASCII then
    if !hasUpper then s
    else s.map (fun c =>
      if 'A'.toNat ≤ c.toNat ∧ c.toNat ≤ 'Z'.toNat then Char.ofNat (c.toNat + 32) else c)
  else s.map (unicodeToLower caseTable)

end strings

/-! ## Package `path/filepath` (Unix) -/

namespace filepath

/-- The path separator. -/
def Separator : Char := '/'

/-- The element `..`. -/
def dotdot : GoString := ['.', '.']

/-- The elements of a path: the pieces between separators (empty pieces included). -/
def splitSep : GoString → List GoString
  | [] => [[]]
  | c :: cs =>
    if c = Separator then [] :: splitSep cs
    else match splitSep cs with
      | [] => [[c]]
      | h :: t => (c :: h) :: t

/-- Elements joined with single separators. -/
def joinSep (elems : List GoString) : GoString := [Separator].intercalate elems

/-- One element processed by the loop of `filepath.Clean`.  `stack` holds the
elements written so far, the last one first.  An empty element and `.` are
dropped; `..` removes the last real element when there is one (`out.w > dotdot`),
is kept when the path is not rooted, and is dropped at the root; any other
element is appended. -/
def cleanStep (rooted : Bool) (stack : List GoString) (e : GoString) : List GoString :=
  if e = [] ∨ e = ['.'] then stack
  else if e = dotdot then
    match stack with
    | [] => if rooted then [] else [dotdot]
    | top :: rest => if top ≠ dotdot then rest else if rooted then stack else dotdot :: stack
  else e :: stack

/-- Whether the path starts with a separator (`filepath.IsAbs` on Unix). -/
def IsAbs (path : GoString) : Bool := path.head? = some Separator

/-- The elements of the cleaned path, in order. -/
def cleanElems (path : GoString) : List GoString :=
  ((splitSep path).foldl (cleanStep (IsAbs path)) []).reverse

/-- Go `filepath.Clean`: the shortest equivalent path by purely lexical
processing.  The empty path becomes `.`; a rooted path keeps its leading
separator; a path whose elements all cancel becomes `.`. -/
def Clean (path : GoString) : GoString :=
  if path = [] then ['.']
  else if IsAbs path then Separator :: joinSep (cleanElems path)
  else if cleanElems path = [] then ['.']
  else joinSep (cleanElems path)

/-- Go `filepath.Join`: leading empty elements are ignored, the rest is joined
with separators and cleaned; the result is empty when every element is empty. -/
def Join : List GoString → GoString
  | [] => []
  | e :: rest => if e ≠ [] then Clean (joinSep (e :: rest)) else Join rest

/-- Go `filepath.Ext`: the suffix beginning at the final dot in the final element
of the path; empty when that element has no dot. -/
def Ext (path : GoString) : GoString :=
  let lastRev := path.reverse.takeWhile (fun c => c ≠ Separator)
  if '.' ∈ lastRev then ('.' :: (lastRev.takeWhile (fun c => c ≠ '.')).reverse) else []

/-- Go `filepath.Base`: the last element of the path, trailing separators
removed first; `.` for the empty path and `/` for a path of separators only. -/
def Base (path : GoString) : GoString :=
  if path = [] then ['.']
  else
    let stripped := (path.reverse.dropWhile (fun c => c = Separator)).reverse
    let last := (stripped.reverse.takeWhile (fun c => c ≠ Separator)).reverse
    if last = [] then [Separator] else last

/-- The element-matching loop of `filepath.Rel`.  The arguments are `base[b0:]`
and `targ[t0:]`; the result is `(base[b0:bi], base[b0:], targ[t0:])` at the
moment the loop is left.  One round reads an element of each path up to the next
separator, stops when they differ, and otherwise steps over the element and the
separator after it. -/
def relLoop : Nat → GoString → GoString → GoString × GoString × GoString
  | 0, b, t => ([], b, t)
  | fuel + 1, b, t =>
    if b = [] ∨ t = [] then ([], b, t)
    else
      let eb := b.takeWhile (fun c => c ≠ Separator)
      let et := t.takeWhile (fun c => c ≠ Separator)
      if et ≠ eb then (eb, b, t)
      else relLoop fuel ((b.drop eb.length).drop 1) ((t.drop et.length).drop 1)

/-- Go `filepath.Rel`: a path that, joined to `basepath`, is lexically equal to
`targpath`; `none` is the error "can't make ... relative to ...".  Every round of
the loop consumes at least one byte of `base`, so `base.length + 1` rounds
suffice. -/
def Rel (basepath targpath : GoString) : Option GoString :=
  let base := Clean basepath
  let targ := Clean targpath
  if targ = base then some ['.']
  else
    let base := if base = ['.'] then [] else base
    let baseSlashed : Bool := IsAbs base
    let targSlashed : Bool := IsAbs targ
    if baseSlashed ≠ targSlashed then none
    else
      match relLoop (base.length + 1) base targ with
      | (elemB, baseRest, targRest) =>
        if elemB = dotdot then none
        else if baseRest ≠ [] then
          let seps := baseRest.count Separator
          let up := dotdot ++ (List.replicate seps (Separator :: dotdot)).flatten
          some (if targRest ≠ [] then up ++ Separator :: targRest else up)
        else some targRest

end filepath

/-! ## `main.go` -/

/-- The errors the program builds with `fmt.Errorf`, and the errors of the
system calls it reports. -/
inductive GoError where
  | stat            -- "stat %s: %w"
  | stillChanging   -- "file %s is still changing"
  | createFolder    -- "create folder %s: %w"
  | moveFailed      -- "move %s → %s: rename=%v, copy=%w"
  | removeSource    -- "remove source after copy %s: %w"
  | mkdir           -- an error of os.MkdirAll
  | rename          -- an error of os.Rename
  | remove          -- an error of os.Remove
  | openSrc         -- "open src: %w"
  | createDst       -- "create dst: %w"
  | copy            -- "copy: %w"
  | readDir         -- an error of os.Lstat or os.ReadDir met by filepath.WalkDir
  deriving DecidableEq

/-- The table `typeMap`, lines 21-41, in source order. -/
def typeMap : List (GoString × GoString) :=
  [(".jpg".toList, "pics".toList), (".jpeg".toList, "pics".toList),
   (".png".toList, "pics".toList), (".gif".toList, "pics".toList),
   (".pdf".toList, "docs".toList), (".docx".toList, "docs".toList),
   (".txt".toList, "docs".toList),
   (".mp4".toList, "video".toList), (".avi".toList, "video".toList),
   (".mov".toList, "video".toList),
   (".mp3".toList, "audio".toList), (".wav".toList, "audio".toList),
   (".zip".toList, "archives".toList), (".tar".toList, "archives".toList),
   (".rar".toList, "archives".toList)]

/-- The Go index expression `typeMap[key]`: the mapped value, or the zero value
(the empty string) when the key is absent. -/
def typeMapIndex (key : GoString) : GoString := (typeMap.lookup key).getD []

/-- The loop of `waitForCompleteFile`, lines 45-56.  `stat i` is what the `i`-th
`os.Stat(path)` returns: the size, or `none` for an error.  `remaining` counts the
rounds still allowed (`attempts - i`). -/
def waitLoop (stat : Nat → Option Int) : Nat → Nat → Int → Option GoError
  | 0, _, _ => some GoError.stillChanging
  | remaining + 1, i, prevSize =>
    match stat i with
    | none => some GoError.stat
    | some size => if size = prevSize then none else waitLoop stat remaining (i + 1) size

/-- The function `waitForCompleteFile`, lines 43-58; `none` is the `nil` error.  The
sleep between two readings has no effect on the result and is left out. -/
def waitForCompleteFile (stat : Nat → Option Int) (attempts : Int) : Option GoError :=
  waitLoop stat attempts.toNat 0 (-1)

/-- The state of the file system: regular files with their bytes, and
directories.  Both are keyed by cleaned path: two spellings that
`filepath.Clean` identifies name the same file. -/
structure FS where
  files : List (GoString × List Nat)
  dirs : List GoString
  deriving DecidableEq

namespace FS

/-- The content of the regular file at `p`, if there is one. -/
def readFile (fs : FS) (p : GoString) : Option (List Nat) := fs.files.lookup (filepath.Clean p)

/-- Whether `os.Stat(p)` finds something. -/
def pathExists (fs : FS) (p : GoString) : Bool :=
  (fs.readFile p).isSome || fs.dirs.contains (filepath.Clean p)

/-- The file system with the file at `p` set to the bytes `c`. -/
def writeFile (fs : FS) (p : GoString) (c : List Nat) : FS :=
  { fs with files := (filepath.Clean p, c) :: fs.files.filter (fun e => e.1 ≠ filepath.Clean p) }

/-- The file system without the file at `p`. -/
def removeFile (fs : FS) (p : GoString) : FS :=
  { fs with files := fs.files.filter (fun e => e.1 ≠ filepath.Clean p) }

/-- The file system with the listed directories added (those not yet there). -/
def addDirs (fs : FS) (ds : List GoString) : FS :=
  { fs with dirs := fs.dirs ++ ds.filter (fun d => !fs.dirs.contains d) }

end FS

/-- How an `os.MkdirAll` ends when the world decides: it succeeds, or it fails
after having created the first `created` missing directories of the chain. -/
inductive MkdirOutcome where
  | ok
  | failAfter (created : Nat)
  deriving DecidableEq

/-- How a `copyFile` ends when the world decides. -/
inductive CopyOutcome where
  | ok
  | openFails
  | createFails
  | writeFails (written : Nat)
  deriving DecidableEq

/-- What one call of `moveFileWithUniqueName` does not control: the outcome of
each system call it makes, and the sizes `os.Stat` reports for the source while
other processes may still be writing it.  `statDenied p` says that the
`os.Stat(p)` of the probing loop fails with an error other than "not exist": the
name is too long, or the folder may not be searched. -/
structure World where
  mkdir : MkdirOutcome
  statSize : Nat → Option Int
  statDenied : GoString → Bool
  renameFails : Bool
  copy : CopyOutcome
  removeFails : Bool

/-- The test of line 92, `os.IsNotExist(err)` after `os.Stat(p)`: true exactly when
`os.Stat` fails with the error "not exist", that is when nothing is at `p` and
`os.Stat` does not fail for another reason. -/
def statNotExist (w : World) (fs : FS) (p : GoString) : Bool :=
  !w.statDenied p && !fs.pathExists p

/-- The directory `p` and the directories above it, outermost first, as
`os.MkdirAll` creates them, each as a cleaned path. -/
def mkdirChain (p : GoString) : List GoString :=
  ((filepath.cleanElems p).inits.tail).map (fun es =>
    if filepath.IsAbs p then filepath.Separator :: filepath.joinSep es else filepath.joinSep es)

/-- The function `ensureDir`, lines 60-62: `os.MkdirAll(p, dirPerm)`.  It fails
when the world says so, and it fails without creating anything when a regular
file is in the way. -/
def ensureDir (w : World) (fs : FS) (p : GoString) : FS × Option GoError :=
  match w.mkdir with
  | MkdirOutcome.failAfter n => (fs.addDirs ((mkdirChain p).take n), some GoError.mkdir)
  | MkdirOutcome.ok =>
    if (mkdirChain p).any (fun d => (fs.readFile d).isSome) then (fs, some GoError.mkdir)
    else (fs.addDirs (mkdirChain p), none)

/-- The category folder of a source path, lines 73-77. -/
def categoryFolder (caseTable : Char → Char) (srcPath : GoString) : GoString :=
  let ext := strings.ToLower caseTable (filepath.Ext srcPath)
  let folder := typeMapIndex ext
  if folder = [] then "other".toList else folder

/-- Go `int` addition on a 64-bit platform: the sum wraps around. -/
def wrapInt64 (i : Int) : Int := (i + 2 ^ 63) % 2 ^ 64 - 2 ^ 63

/-- The string `fmt.Sprintf("%d_%s", i, base)`. -/
def prefixed (i : Int) (base : GoString) : GoString := (toString i).toList ++ '_' :: base

/-- The probing loop, lines 91-96.  `notExist p` is the test of line 92,
`os.IsNotExist(err)` after `os.Stat(p)`; the program runs the loop with
`statNotExist`.  `none` means the rounds allowed were used up. -/
def probeLoop (notExist : GoString → Bool) (targetFolder base : GoString) :
    Nat → Int → GoString → Option GoString
  | 0, _, _ => none
  | fuel + 1, i, dstPath =>
    if notExist dstPath then some dstPath
    else probeLoop notExist targetFolder base fuel (wrapInt64 (i + 1))
      (filepath.Join [targetFolder, prefixed i base])

/-- The name resolution of lines 88-96.  The loop state is the counter `i`, a
64-bit integer, and `dstPath`, which from the second round on is a function of
`i`: after `2 ^ 64 + 1` rounds every state has been seen, so `none` means that the
Go loop never ends. -/
def uniqueName (notExist : GoString → Bool) (targetFolder base : GoString) : Option GoString :=
  probeLoop notExist targetFolder base (2 ^ 64 + 1) 1 (filepath.Join [targetFolder, base])

/-- The call `os.Rename(src, dst)` on a regular file: it fails when the world says
so or when there is no file at `src`, and then changes nothing; otherwise the
file is at `dst` and no longer at `src`. -/
def rename (w : World) (fs : FS) (src dst : GoString) : FS × Option GoError :=
  match fs.readFile src with
  | none => (fs, some GoError.rename)
  | some c =>
    if w.renameFails then (fs, some GoError.rename)
    else ((fs.removeFile src).writeFile dst c, none)

/-- The call `os.Remove(src)`: it fails when the world says so or when there is
no file at `src`, and then changes nothing. -/
def remove (w : World) (fs : FS) (src : GoString) : FS × Option GoError :=
  match fs.readFile src with
  | none => (fs, some GoError.remove)
  | some _ => if w.removeFails then (fs, some GoError.remove) else (fs.removeFile src, none)

/-- The function `copyFile`, lines 116-135.  `os.Open` fails when there is no file
at `src`; `os.Create` leaves an empty file at `dst`, so that nothing is left to
read when `dst` is the file `src` itself; an `io.Copy` that fails has written a
prefix of the bytes; the result of closing `dst` is discarded. -/
def copyFile (w : World) (fs : FS) (src dst : GoString) : FS × Option GoError :=
  match fs.readFile src with
  | none => (fs, some GoError.openSrc)
  | some c =>
    match w.copy with
    | CopyOutcome.openFails => (fs, some GoError.openSrc)
    | CopyOutcome.createFails => (fs, some GoError.createDst)
    | CopyOutcome.writeFails n =>
      if filepath.Clean dst = filepath.Clean src then (fs.writeFile dst [], some GoError.copy)
      else (fs.writeFile dst (c.take n), some GoError.copy)
    | CopyOutcome.ok =>
      if filepath.Clean dst = filepath.Clean src then (fs.writeFile dst [], none)
      else (fs.writeFile dst c, none)

/-- A line printed on standard output. -/
inductive Msg where
  | dryRun (src dst : GoString)   -- "[dry-run] %s → %s"
  | moved (src dst : GoString)    -- "Moved: %s → %s"
  deriving DecidableEq

/-- What a call of `moveFileWithUniqueName` leaves behind: the file system, the
returned error (`none` is `nil`), the value of `dstPath` if the call got as far as
computing it, and the lines printed. -/
structure MoveResult where
  fs : FS
  err : Option GoError
  dst : Option GoString
  out : List Msg
  deriving DecidableEq

/-- The function `moveFileWithUniqueName`, lines 72-114, acting on the file system
`fs` in the world `w`; `caseTable` is the Unicode table behind `strings.ToLower`.
`none` means that the probing loop never ends. -/
def moveFileWithUniqueName (caseTable : Char → Char) (w : World) (fs : FS)
    (srcPath dstDir : GoString) (dryRun : Bool) : Option MoveResult :=
  let folder := categoryFolder caseTable srcPath
  let targetFolder := filepath.Join [dstDir, folder]
  match ensureDir w fs targetFolder with
  | (fs1, some _) => some ⟨fs1, some GoError.createFolder, none, []⟩
  | (fs1, none) =>
    match waitForCompleteFile w.statSize 5 with
    | some e => some ⟨fs1, some e, none, []⟩
    | none =>
      let base := filepath.Base srcPath
      match uniqueName (statNotExist w fs1) targetFolder base with
      | none => none
      | some dstPath =>
        if dryRun then some ⟨fs1, none, some dstPath, [Msg.dryRun srcPath dstPath]⟩
        else
          match rename w fs1 srcPath dstPath with
          | (fs2, none) => some ⟨fs2, none, some dstPath, [Msg.moved srcPath dstPath]⟩
          | (fs2, some _) =>
            match copyFile w fs2 srcPath dstPath with
            | (fs3, some _) => some ⟨fs3, some GoError.moveFailed, some dstPath, []⟩
            | (fs3, none) =>
              match remove w fs3 srcPath with
              | (fs4, some _) => some ⟨fs4, some GoError.removeSource, some dstPath, []⟩
              | (fs4, none) => some ⟨fs4, none, some dstPath, [Msg.moved srcPath dstPath]⟩

/-- The function `insideDir`, lines 64-70. -/
def insideDir (dir path : GoString) : Bool :=
  match filepath.Rel dir path with
  | none => false
  | some rel => !strings.HasPrefix rel ['.', '.']

/-! ## `filepath.WalkDir` and `organizeOnce` -/

/-- What the walk finds at a path: something that is not a directory, or a
directory with the entries `os.ReadDir` returns for it (name and entry, in the
order returned) and the error returned with them, if any. -/
inductive Node where
  | file : Node
  | dir (readErr : Option GoError) (entries : List (GoString × Node)) : Node

/-- What a `fs.WalkDirFunc` returns besides `nil`. -/
inductive WalkErr where
  | skipDir
  | err (e : GoError)
  deriving DecidableEq

/-- The state of a walk: the state `user` the callback works on, and the
directories whose entries have been read so far, in order. -/
structure WalkState (σ : Type) where
  user : σ
  read : List GoString

/-- A `fs.WalkDirFunc`: path, `d.IsDir()`, the error passed in. -/
abbrev WalkDirFunc (σ : Type) := GoString → Bool → Option GoError → σ → σ × Option WalkErr

mutual
/-- The function `walkDir` of `path/filepath`: the callback is called on the entry;
a directory the callback accepts is read and its entries are walked in order. -/
def walkDir {σ : Type} (fn : WalkDirFunc σ) (path : GoString) :
    Node → WalkState σ → WalkState σ × Option WalkErr
  | Node.file, s =>
    match fn path false none s.user with
    | (u, r) => (⟨u, s.read⟩, r)
  | Node.dir readErr entries, s =>
    match fn path true none s.user with
    | (u, some WalkErr.skipDir) => (⟨u, s.read⟩, none)
    | (u, some (WalkErr.err e)) => (⟨u, s.read⟩, some (WalkErr.err e))
    | (u, none) =>
      match readErr with
      | none => walkEntries fn path entries ⟨u, s.read ++ [path]⟩
      | some e =>
        match fn path true (some e) u with
        | (u2, some WalkErr.skipDir) => (⟨u2, s.read ++ [path]⟩, none)
        | (u2, some (WalkErr.err e2)) => (⟨u2, s.read ++ [path]⟩, some (WalkErr.err e2))
        | (u2, none) => walkEntries fn path entries ⟨u2, s.read ++ [path]⟩
/-- The loop over the entries of a directory in `walkDir`: `SkipDir` from an
entry ends the loop, another error ends the walk. -/
def walkEntries {σ : Type} (fn : WalkDirFunc σ) (path : GoString) :
    List (GoString × Node) → WalkState σ → WalkState σ × Option WalkErr
  | [], s => (s, none)
  | (name, d1) :: rest, s =>
    match walkDir fn (filepath.Join [path, name]) d1 s with
    | (s1, some WalkErr.skipDir) => (s1, none)
    | (s1, some (WalkErr.err e)) => (s1, some (WalkErr.err e))
    | (s1, none) => walkEntries fn path rest s1
end

/-- Go `filepath.WalkDir`.  `root` is what `os.Lstat(root)` finds: an error, or the
tree below the root.  `SkipDir` from the root is not an error. -/
def WalkDir {σ : Type} (rootPath : GoString) (root : Except GoError Node) (fn : WalkDirFunc σ)
    (s : WalkState σ) : WalkState σ × Option GoError :=
  match root with
  | Except.error e =>
    match fn rootPath false (some e) s.user with
    | (u, some (WalkErr.err e2)) => (⟨u, s.read⟩, some e2)
    | (u, _) => (⟨u, s.read⟩, none)
  | Except.ok d =>
    match walkDir fn rootPath d s with
    | (s1, some (WalkErr.err e2)) => (s1, some e2)
    | (s1, _) => (s1, none)

/-- What `organizeOnce` has done so far: the state `world` that the calls of
`moveFileWithUniqueName` act on, the paths those calls were made on, in order, and
the errors written with `log.Println("move failed:", err)`. -/
structure OrgState (μ : Type) where
  world : μ
  calls : List GoString
  logged : List GoError

/-- The callback of `organizeOnce`, lines 138-162.  `move path dstDir dryRun` is the
call of `moveFileWithUniqueName`, taken as a parameter: any function that acts on
a state `μ` (the file system and whatever else the call depends on) and returns
the error of the call.  The callback logs that error and returns `nil`. -/
def organizeVisit {μ : Type} (move : GoString → GoString → Bool → μ → μ × Option GoError)
    (srcDir dstDir : GoString) (noRecursive dryRun : Bool) : WalkDirFunc (OrgState μ) :=
  fun path isDir err st =>
    match err with
    | some e => (st, some (WalkErr.err e))
    | none =>
      if isDir ∧ filepath.Clean path = filepath.Clean dstDir then (st, some WalkErr.skipDir)
      else if isDir then
        if noRecursive ∧ filepath.Clean path ≠ filepath.Clean srcDir then
          (st, some WalkErr.skipDir)
        else (st, none)
      else if insideDir dstDir path then (st, none)
      else
        match move path dstDir dryRun st.world with
        | (m, some e) => (⟨m, st.calls ++ [path], st.logged ++ [e]⟩, none)
        | (m, none) => (⟨m, st.calls ++ [path], st.logged⟩, none)

/-- The function `organizeOnce`, lines 137-163. -/
def organizeOnce {μ : Type} (move : GoString → GoString → Bool → μ → μ × Option GoError)
    (srcDir dstDir : GoString) (noRecursive dryRun : Bool) (root : Except GoError Node)
    (m : μ) : WalkState (OrgState μ) × Option GoError :=
  WalkDir srcDir root (organizeVisit move srcDir dstDir noRecursive dryRun) ⟨⟨m, [], []⟩, []⟩

/-! ## Notions the properties are stated with -/

/-- An ASCII capital letter replaced by its small letter, any other character
unchanged. -/
def asciiFold (c : Char) : Char :=
  if 'A'.toNat ≤ c.toNat ∧ c.toNat ≤ 'Z'.toNat then Char.ofNat (c.toNat + 32) else c

/-- Two strings that differ only in the case of ASCII letters. -/
def differOnlyInCase (s t : GoString) : Bool := decide (s.map asciiFold = t.map asciiFold)

/-- The `k`-th candidate name of the probing loop: `targetFolder/base` for `k = 0`, and
`targetFolder/k_base` for `k ≥ 1`. -/
def candidate (targetFolder base : GoString) (k : Nat) : GoString :=
  if k = 0 then filepath.Join [targetFolder, base]
  else filepath.Join [targetFolder, prefixed (k : Int) base]

/-! ## The scenarios of the specification -/

/-- A world in which every system call succeeds and the source keeps the size 3. -/
def quietWorld : World :=
  { mkdir := MkdirOutcome.ok, statSize := fun _ => some 3, statDenied := fun _ => false,
    renameFails := false, copy := CopyOutcome.ok, removeFails := false }

/-- A world in which the source grows between any two readings of its size. -/
def growingWorld : World :=
  { mkdir := MkdirOutcome.ok, statSize := fun i => some (i : Int),
    statDenied := fun _ => false, renameFails := false, copy := CopyOutcome.ok,
    removeFails := false }

/-- A world in which the rename fails (another device) and the copy is cut short
after one byte. -/
def crossDeviceWorld : World :=
  { mkdir := MkdirOutcome.ok, statSize := fun _ => some 3, statDenied := fun _ => false,
    renameFails := true, copy := CopyOutcome.writeFails 1, removeFails := false }

/-- A world in which the category folder may not be searched: every `os.Stat` of
the probing loop fails with "permission denied". -/
def deniedWorld : World :=
  { mkdir := MkdirOutcome.ok, statSize := fun _ => some 3, statDenied := fun _ => true,
    renameFails := false, copy := CopyOutcome.ok, removeFails := false }

/-- The source directory `src` holds `photo.jpg`; the destination `organized` exists
and is empty. -/
def scenarioFS : FS :=
  { files := [("src/photo.jpg".toList, [1, 2, 3])],
    dirs := ["organized".toList, "src".toList] }

/-! ## Lexical notions about paths -/

/-- A proper name of a directory entry: not empty, no separator, not `.` and
not `..`. -/
def validName (e : GoString) : Bool :=
  decide (e ≠ [] ∧ filepath.Separator ∉ e ∧ e ≠ ['.'] ∧ e ≠ filepath.dotdot)

/-- A cleaned path written from its elements: a leading separator when rooted,
then the elements with single separators between them. -/
def renderPath (rooted : Bool) (elems : List GoString) : GoString :=
  if rooted then filepath.Separator :: filepath.joinSep elems else filepath.joinSep elems

/-- The shape of the elements of a cleaned path: some `..` elements first (none
when the path is rooted), then proper names. -/
def NormalElems (rooted : Bool) (elems : List GoString) : Prop :=
  ∃ k names, elems = List.replicate k filepath.dotdot ++ names ∧ (rooted = true → k = 0) ∧
    ∀ e ∈ names, validName e = true

/-- The stack of `filepath.Clean`, last element first: proper names on top of
`..` elements, and no `..` at all under a root. -/
def NormalStack (rooted : Bool) (stack : List GoString) : Prop :=
  ∃ names k, stack = names ++ List.replicate k filepath.dotdot ∧ (rooted = true → k = 0) ∧
    ∀ e ∈ names, validName e = true

/-- Two element lists with their common leading elements removed. -/
def stripCommon : List GoString → List GoString → List GoString × List GoString
  | b :: bs, t :: ts => if b = t then stripCommon bs ts else (b :: bs, t :: ts)
  | [], ts => ([], ts)
  | bs, [] => (bs, [])

/-- The path `path` is `dir` or lies below `dir`, by comparing the elements of
the two cleaned paths: both are rooted or both are not, the elements of `dir`
start the elements of `path`, and what follows does not climb out with `..`. -/
def lexInside (dir path : GoString) : Bool :=
  decide (filepath.IsAbs dir = filepath.IsAbs path ∧
    filepath.cleanElems dir <+: filepath.cleanElems path ∧
    ((filepath.cleanElems path).drop (filepath.cleanElems dir).length).head?
      ≠ some filepath.dotdot)

/-- The element of `path` that comes right after the elements of `dir`, when the
elements of `dir` start the elements of `path`. -/
def firstBelow (dir path : GoString) : Option GoString :=
  if filepath.cleanElems dir <+: filepath.cleanElems path then
    ((filepath.cleanElems path).drop (filepath.cleanElems dir).length).head?
  else none

/-- The element of `path` right below `dir`, if there is one, does not begin with
two dots, unless it is `..` itself. -/
def slipFree (dir path : GoString) : Bool :=
  match firstBelow dir path with
  | none => true
  | some t => decide (strings.HasPrefix t filepath.dotdot = true → t = filepath.dotdot)

/-- Go `filepath.Abs` with the working directory `cwd`. -/
def Abs (cwd path : GoString) : GoString :=
  if filepath.IsAbs path then filepath.Clean path else filepath.Join [cwd, path]

/-- The file or directory named by `path` is the directory named by `dir` or lies
in the subtree below it, both names being resolved against the working
directory `cwd`. -/
def liesInside (cwd dir path : GoString) : Bool :=
  decide (filepath.cleanElems (Abs cwd dir) <+: filepath.cleanElems (Abs cwd path))

/-! ## Notions about the walked tree -/

mutual
/-- Every name in the tree is a proper entry name, as the names `os.ReadDir`
returns are. -/
def wellFormed : Node → Bool
  | Node.file => true
  | Node.dir _ entries => wellFormedEntries entries
/-- Every name in the listing, and below it, is a proper entry name. -/
def wellFormedEntries : List (GoString × Node) → Bool
  | [] => true
  | (name, d) :: rest => validName name && wellFormed d && wellFormedEntries rest
end

/-- A callee for `organizeOnce` that has no state and never fails. -/
def moveOk : GoString → GoString → Bool → Unit → Unit × Option GoError :=
  fun _ _ _ m => (m, none)

/-- A callee for `organizeOnce` that has no state and always fails. -/
def moveFail : GoString → GoString → Bool → Unit → Unit × Option GoError :=
  fun _ _ _ m => (m, some GoError.stillChanging)

/-- A source directory that holds `new.jpg`, the destination `organized` with
`pics/old.jpg` from an earlier run, and a subdirectory `sub` with `x.txt`. -/
def downloadsEntries : List (GoString × Node) :=
  [("new.jpg".toList, Node.file),
   ("organized".toList,
     Node.dir none [("pics".toList, Node.dir none [("old.jpg".toList, Node.file)])]),
   ("sub".toList, Node.dir none [("x.txt".toList, Node.file)])]

/-- The tree of the source directory with the entries `downloadsEntries`. -/
def downloadsTree : Node := Node.dir none downloadsEntries

mutual
/-- The files the per-file pipeline is due on, in the order of the walk: every
entry that is not a directory and that `insideDir` does not place in the
destination, found without entering the destination directory and, when
`noRecursive` is set, without entering any directory but the source root. -/
def eligibleFiles (srcDir dstDir : GoString) (noRecursive : Bool) (path : GoString) :
    Node → List GoString
  | Node.file => if insideDir dstDir path then [] else [path]
  | Node.dir _ entries =>
    if filepath.Clean path = filepath.Clean dstDir then []
    else if noRecursive = true ∧ filepath.Clean path ≠ filepath.Clean srcDir then []
    else eligibleEntries srcDir dstDir noRecursive path entries
/-- The eligible files below the entries of a directory. -/
def eligibleEntries (srcDir dstDir : GoString) (noRecursive : Bool) (path : GoString) :
    List (GoString × Node) → List GoString
  | [] => []
  | (name, d) :: rest =>
    eligibleFiles srcDir dstDir noRecursive (filepath.Join [path, name]) d ++
      eligibleEntries srcDir dstDir noRecursive path rest
end

mutual
/-- Whether reading some directory fails during the walk: a directory that the
walk enters (not the destination, and with `noRecursive` only the source root)
comes with a read error. -/
def readErrMet (srcDir dstDir : GoString) (noRecursive : Bool) (path : GoString) :
    Node → Bool
  | Node.file => false
  | Node.dir readErr entries =>
    if filepath.Clean path = filepath.Clean dstDir then false
    else if noRecursive = true ∧ filepath.Clean path ≠ filepath.Clean srcDir then false
    else readErr.isSome || readErrMetEntries srcDir dstDir noRecursive path entries
/-- Whether reading some directory fails below the entries of a directory. -/
def readErrMetEntries (srcDir dstDir : GoString) (noRecursive : Bool) (path : GoString) :
    List (GoString × Node) → Bool
  | [] => false
  | (name, d) :: rest =>
    readErrMet srcDir dstDir noRecursive (filepath.Join [path, name]) d ||
      readErrMetEntries srcDir dstDir noRecursive path rest
end

/-! ## Sample values of the library functions -/

/-- Paths with the result of `filepath.Clean` on them. -/
def cleanSamples : List (String × String) :=
  [("abc", "abc"), ("abc/def", "abc/def"), ("a/b/c", "a/b/c"), (".", "."), ("..", ".."),
   ("../..", "../.."), ("../../abc", "../../abc"), ("/abc", "/abc"), ("/", "/"), ("", "."),
   ("abc/", "abc"), ("abc/def/", "abc/def"), ("a/b/c/", "a/b/c"), ("./", "."), ("../", ".."),
   ("../../", "../.."), ("/abc/", "/abc"), ("abc//def//ghi", "abc/def/ghi"), ("abc//", "abc"),
   ("abc/./def", "abc/def"), ("/./abc/def", "/abc/def"), ("abc/.", "abc"),
   ("abc/def/ghi/../jkl", "abc/def/jkl"), ("abc/def/../ghi/../jkl", "abc/jkl"),
   ("abc/def/..", "abc"), ("abc/def/../..", "."), ("/abc/def/../..", "/"),
   ("abc/def/../../..", ".."), ("/abc/def/../../..", "/"),
   ("abc/def/../../../ghi/jkl/../../../mno", "../../mno"), ("/../abc", "/abc"),
   ("abc/./../def", "def"), ("abc//./../def", "def"), ("abc/../../././../def", "../../def")]

/-- Pairs of base and target with the result of `filepath.Rel` on them; `none` is
the error. -/
def relSamples : List (String × String × Option String) :=
  [("a/b", "a/b", some "."), ("a/b/.", "a/b", some "."), ("a/b", "a/b/.", some "."),
   ("./a/b", "a/b", some "."), ("a/b", "./a/b", some "."), ("ab/cd", "ab/cde", some "../cde"),
   ("ab/cd", "ab/c", some "../c"), ("a/b", "a/b/c/d", some "c/d"),
   ("a/b", "a/b/../c", some "../c"), ("a/b/../c", "a/b", some "../b"),
   ("a/b/c", "a/c/d", some "../../c/d"), ("a/b", "c/d", some "../../c/d"),
   ("a/b/c/d", "a/b", some "../.."), ("a/b/c/d", "a/b/", some "../.."),
   ("a/b/c/d/", "a/b", some "../.."), ("a/b/c/d/", "a/b/", some "../.."),
   ("../../a/b", "../../a/b/c/d", some "c/d"), ("/a/b", "/a/b", some "."),
   ("/a/b/.", "/a/b", some "."), ("/a/b", "/a/b/.", some "."),
   ("/ab/cd", "/ab/cde", some "../cde"), ("/ab/cd", "/ab/c", some "../c"),
   ("/a/b", "/a/b/c/d", some "c/d"), ("/a/b", "/a/b/../c", some "../c"),
   ("/a/b/../c", "/a/b", some "../b"), ("/a/b/c", "/a/c/d", some "../../c/d"),
   ("/a/b", "/c/d", some "../../c/d"), ("/a/b/c/d", "/a/b", some "../.."),
   ("/a/b/c/d", "/a/b/", some "../.."), ("/a/b/c/d/", "/a/b", some "../.."),
   ("/a/b/c/d/", "/a/b/", some "../.."), ("/../../a/b", "/../../a/b/c/d", some "c/d"),
   (".", "a/b", some "a/b"), (".", "..", some ".."),
   ("..", ".", none), ("..", "a", none), ("a", "/a", none), ("/a", "a", none)]

/-- Paths with the result of `filepath.Base` on them. -/
def baseSamples : List (String × String) :=
  [("", "."), (".", "."), ("/.", "."), ("/", "/"), ("////", "/"), ("x/", "x"), ("abc", "abc"),
   ("abc/def", "def"), ("a/b/.x", ".x"), ("a/b/c.", "c."), ("a/b/c.x", "c.x")]

/-- Paths with the result of `filepath.Ext` on them. -/
def extSamples : List (String × String) :=
  [("path.go", ".go"), ("path.pb.go", ".go"), ("a.dir/b", ""), ("a.dir/b.go", ".go"),
   ("a.dir/", "")]

/-- The category folder `organized/pics` exists and is empty; the source holds
`photo.jpg`. -/
def lockedFS : FS :=
  { files := [("src/photo.jpg".toList, [1, 2, 3])],
    dirs := ["organized".toList, "organized/pics".toList, "src".toList] }

/-- The category folder `organized/docs` already holds `foo.txt` and `1_foo.txt`. -/
def collisionFS : FS :=
  { files := [("organized/docs/foo.txt".toList, [1]), ("organized/docs/1_foo.txt".toList, [2]),
      ("src/foo.txt".toList, [3])],
    dirs := ["organized".toList, "organized/docs".toList, "src".toList] }

/-! # Theorems -/

open filepath


/-! ### The library functions on sample values -/

/-- The model of `filepath.Clean` returns the library's result on every sample. -/
theorem Clean_samples :
    cleanSamples.all (fun e => filepath.Clean e.1.toList == e.2.toList) = true := by
  decide

/-- The model of `filepath.Rel` returns the library's result on every sample. -/
theorem Rel_samples :
    relSamples.all
      (fun e => filepath.Rel e.1.toList e.2.1.toList == e.2.2.map String.toList) = true := by
  decide

/-- The model of `filepath.Base` returns the library's result on every sample. -/
theorem Base_samples :
    baseSamples.all (fun e => filepath.Base e.1.toList == e.2.toList) = true := by
  decide

/-- The model of `filepath.Ext` returns the library's result on every sample. -/
theorem Ext_samples :
    extSamples.all (fun e => filepath.Ext e.1.toList == e.2.toList) = true := by
  decide


/-- The stability loop, started at reading `i` with previous size `prev`, on
readings that all succeed: it ends with `nil` exactly when the first reading
equals `prev` or two neighbouring readings among the next `n` agree, and with
"still changing" otherwise. -/
theorem waitLoop_spec (stat : Nat → Option Int) (n : Nat) :
    ∀ (i : Nat) (prev : Int), (∀ j, j < n → ∃ sz, stat (i + j) = some sz) →
      ((waitLoop stat n i prev = none ↔
          ((0 < n ∧ stat i = some prev) ∨ ∃ j, j + 1 < n ∧ stat (i + j) = stat (i + j + 1))) ∧
        (waitLoop stat n i prev = none ∨ waitLoop stat n i prev = some GoError.stillChanging)) := by
  induction n with
  | zero =>
    intro i prev _
    simp [waitLoop]
  | succ n ih =>
    intro i prev hall
    obtain ⟨sz, hsz⟩ := hall 0 (Nat.succ_pos n)
    simp only [Nat.add_zero] at hsz
    have hall2 : ∀ j, j < n → ∃ sz, stat (i + 1 + j) = some sz := by
      intro j hj
      have := hall (j + 1) (Nat.succ_lt_succ hj)
      rwa [show i + (j + 1) = i + 1 + j by omega] at this
    obtain ⟨ihiff, ihor⟩ := ih (i + 1) sz hall2
    by_cases heq : sz = prev
    · subst heq
      simp [waitLoop, hsz]
    · have hne : ¬ stat i = some prev := by
        rw [hsz]; intro h; exact heq (Option.some.inj h)
      simp only [waitLoop, hsz, if_neg heq]
      refine ⟨?_, ihor⟩
      rw [ihiff]
      constructor
      · rintro (⟨hn, h⟩ | ⟨j, hj, h⟩)
        · right
          refine ⟨0, by omega, ?_⟩
          simpa [hsz] using h.symm
        · right
          refine ⟨j + 1, by omega, ?_⟩
          rw [show i + (j + 1) = i + 1 + j by omega]
          exact h
      · rintro (⟨_, h⟩ | ⟨j, hj, h⟩)
        · exact absurd (Option.some.inj h) heq
        · cases j with
          | zero =>
            left
            refine ⟨by omega, ?_⟩
            simpa [hsz] using h.symm
          | succ j =>
            right
            refine ⟨j, by omega, ?_⟩
            rw [show i + 1 + j = i + (j + 1) by omega]
            exact h

/-- C3. With attempt budget `attempts` and readings that all succeed with a
non-negative size, `waitForCompleteFile` returns `nil` if and only if two
consecutive readings among the first `attempts` readings are equal, and returns
the "still changing" error when no two consecutive readings among them are
equal. -/
theorem waitForCompleteFile_stable_iff (stat : Nat → Option Int) (attempts : Int)
    (hstat : ∀ i : Nat, (i : Int) < attempts → ∃ sz : Int, stat i = some sz ∧ 0 ≤ sz) :
    (waitForCompleteFile stat attempts = none ↔
        ∃ i : Nat, ((i : Int) + 1 < attempts) ∧ stat i = stat (i + 1)) ∧
      ((¬ ∃ i : Nat, ((i : Int) + 1 < attempts) ∧ stat i = stat (i + 1)) →
        waitForCompleteFile stat attempts = some GoError.stillChanging) := by
  have hall : ∀ j, j < attempts.toNat → ∃ sz, stat (0 + j) = some sz := by
    intro j hj
    obtain ⟨sz, h, _⟩ := hstat j (by omega)
    exact ⟨sz, by simpa using h⟩
  obtain ⟨hiff, hor⟩ := waitLoop_spec stat attempts.toNat 0 (-1) hall
  have hfirst : ¬ (0 < attempts.toNat ∧ stat 0 = some (-1)) := by
    rintro ⟨hpos, h⟩
    obtain ⟨sz, h2, hnn⟩ := hstat 0 (by omega)
    rw [h2] at h
    have := Option.some.inj h
    omega
  have key : (waitForCompleteFile stat attempts = none ↔
        ∃ i : Nat, ((i : Int) + 1 < attempts) ∧ stat i = stat (i + 1)) := by
    unfold waitForCompleteFile
    rw [hiff]
    constructor
    · rintro (h | ⟨j, hj, h⟩)
      · exact absurd h hfirst
      · exact ⟨j, by omega, by simpa using h⟩
    · rintro ⟨i, hi, h⟩
      right
      exact ⟨i, by omega, by simpa using h⟩
  refine ⟨key, fun hno => ?_⟩
  rcases hor with h | h
  · exact absurd (key.mp h) hno
  · exact h

/-- The readings 10, 20, 20, 20, 20 with five attempts. -/
theorem waitForCompleteFile_stable_iff_witness :
    (waitForCompleteFile (fun i => some (if i = 0 then 10 else 20)) 5 = none ↔
        ∃ i : Nat, ((i : Int) + 1 < 5) ∧
          (fun i => some (if i = 0 then (10 : Int) else 20)) i =
            (fun i => some (if i = 0 then (10 : Int) else 20)) (i + 1)) ∧
      ((¬ ∃ i : Nat, ((i : Int) + 1 < 5) ∧
          (fun i => some (if i = 0 then (10 : Int) else 20)) i =
            (fun i => some (if i = 0 then (10 : Int) else 20)) (i + 1)) →
        waitForCompleteFile (fun i => some (if i = 0 then 10 else 20)) 5
          = some GoError.stillChanging) :=
  waitForCompleteFile_stable_iff (fun i => some (if i = 0 then 10 else 20)) 5
    (fun i _ => ⟨if i = 0 then 10 else 20, rfl, by split <;> decide⟩)


/-- Looking a key up after the entries of another key were filtered out. -/
theorem lookup_filter_ne (l : List (GoString × List Nat)) (p q : GoString) (h : q ≠ p) :
    (l.filter (fun e => e.1 ≠ p)).lookup q = l.lookup q := by
  induction l with
  | nil => rfl
  | cons e l ih =>
    obtain ⟨a, b⟩ := e
    by_cases hap : a = p
    · have hq : (q == a) = false := by rw [hap]; simpa using h
      have hf : ¬ ((fun e : GoString × List Nat => decide (e.1 ≠ p)) (a, b) = true) := by
        simpa using hap
      rw [List.filter_cons, if_neg hf, ih]
      simp only [List.lookup, hq]
    · have hf : (fun e : GoString × List Nat => decide (e.1 ≠ p)) (a, b) = true := by
        simpa using hap
      rw [List.filter_cons, if_pos hf]
      by_cases hqa : (q == a) = true
      · simp only [List.lookup, hqa]
      · have hq : (q == a) = false := by simpa using hqa
        simp only [List.lookup, hq]
        exact ih

/-- A key whose entries were filtered out is not found. -/
theorem lookup_filter_self (l : List (GoString × List Nat)) (p : GoString) :
    (l.filter (fun e => e.1 ≠ p)).lookup p = none := by
  induction l with
  | nil => rfl
  | cons e l ih =>
    obtain ⟨a, b⟩ := e
    by_cases hap : a = p
    · have hf : ¬ ((fun e : GoString × List Nat => decide (e.1 ≠ p)) (a, b) = true) := by
        simpa using hap
      rw [List.filter_cons, if_neg hf, ih]
    · have hf : (fun e : GoString × List Nat => decide (e.1 ≠ p)) (a, b) = true := by
        simpa using hap
      have hq : (p == a) = false := by simpa using (Ne.symm hap)
      rw [List.filter_cons, if_pos hf]
      simp only [List.lookup, hq]
      exact ih

theorem readFile_writeFile_same (fs : FS) (p : GoString) (c : List Nat) :
    (fs.writeFile p c).readFile p = some c := by
  simp [FS.writeFile, FS.readFile, List.lookup]

theorem readFile_writeFile_ne (fs : FS) (p q : GoString) (c : List Nat)
    (h : filepath.Clean q ≠ filepath.Clean p) :
    (fs.writeFile p c).readFile q = fs.readFile q := by
  have hq : (filepath.Clean q == filepath.Clean p) = false := by simpa using h
  simp only [FS.writeFile, FS.readFile, List.lookup, hq]
  exact lookup_filter_ne fs.files (filepath.Clean p) (filepath.Clean q) h

theorem readFile_removeFile_same (fs : FS) (p : GoString) :
    (fs.removeFile p).readFile p = none := by
  simp only [FS.removeFile, FS.readFile]
  exact lookup_filter_self fs.files (filepath.Clean p)

theorem readFile_removeFile_ne (fs : FS) (p q : GoString)
    (h : filepath.Clean q ≠ filepath.Clean p) :
    (fs.removeFile p).readFile q = fs.readFile q := by
  simp only [FS.removeFile, FS.readFile]
  exact lookup_filter_ne fs.files (filepath.Clean p) (filepath.Clean q) h

theorem readFile_addDirs (fs : FS) (ds : List GoString) (q : GoString) :
    (fs.addDirs ds).readFile q = fs.readFile q := rfl

/-- The function `ensureDir` creates directories only: every file keeps its content. -/
theorem ensureDir_files (w : World) (fs : FS) (p : GoString) :
    (ensureDir w fs p).1.files = fs.files := by
  unfold ensureDir
  split
  · rfl
  · split <;> rfl

theorem ensureDir_readFile (w : World) (fs : FS) (p q : GoString) :
    (ensureDir w fs p).1.readFile q = fs.readFile q := by
  simp only [FS.readFile, ensureDir_files]

/-- A path the probing loop returns was reported as not existing. -/
theorem probeLoop_notExist (notExist : GoString → Bool) (targetFolder base : GoString)
    (fuel : Nat) : ∀ (i : Int) (dstPath p : GoString),
      probeLoop notExist targetFolder base fuel i dstPath = some p → notExist p = true := by
  induction fuel with
  | zero => intro i dstPath p h; simp [probeLoop] at h
  | succ f ih =>
    intro i dstPath p h
    rw [probeLoop] at h
    by_cases hne : notExist dstPath = true
    · rw [if_pos hne] at h
      rw [← Option.some.inj h]
      exact hne
    · rw [if_neg hne] at h
      exact ih _ _ _ h

theorem uniqueName_notExist (notExist : GoString → Bool) (targetFolder base p : GoString)
    (h : uniqueName notExist targetFolder base = some p) : notExist p = true :=
  probeLoop_notExist notExist targetFolder base _ _ _ _ h


/-- A counter below `2 ^ 63` is not changed by 64-bit wrap-around. -/
theorem wrapInt64_of_lt (k : Nat) (h : k < 2 ^ 63) : wrapInt64 (k : Int) = (k : Int) := by
  unfold wrapInt64
  omega

/-- The probing loop in the state in which it is about to test candidate `k`:
when the candidates `k, …, k + d - 1` exist and candidate `k + d` does not, it
returns candidate `k + d` as soon as it is allowed more than `d` rounds. -/
theorem probeLoop_finds (notExist : GoString → Bool) (targetFolder base : GoString) (d : Nat) :
    ∀ (k fuel : Nat), k + d < 2 ^ 63 → d < fuel →
      (∀ j, k ≤ j → j < k + d → notExist (candidate targetFolder base j) = false) →
      notExist (candidate targetFolder base (k + d)) = true →
      probeLoop notExist targetFolder base fuel (wrapInt64 ((k : Int) + 1))
          (candidate targetFolder base k)
        = some (candidate targetFolder base (k + d)) := by
  induction d with
  | zero =>
    intro k fuel _ hfuel _ hfree
    obtain ⟨f, rfl⟩ : ∃ f, fuel = f + 1 := ⟨fuel - 1, by omega⟩
    simp only [Nat.add_zero] at hfree
    simp [probeLoop, hfree]
  | succ d ih =>
    intro k fuel hk hfuel hocc hfree
    obtain ⟨f, rfl⟩ : ∃ f, fuel = f + 1 := ⟨fuel - 1, by omega⟩
    have hk0 : notExist (candidate targetFolder base k) = false := hocc k (le_refl _) (by omega)
    have hw : wrapInt64 ((k : Int) + 1) = ((k + 1 : Nat) : Int) := by
      have := wrapInt64_of_lt (k + 1) (by omega)
      simpa using this
    have hnext : filepath.Join [targetFolder, prefixed ((k + 1 : Nat) : Int) base]
        = candidate targetFolder base (k + 1) := by
      simp [candidate]
    have hrec := ih (k + 1) f (by omega) (by omega)
      (fun j hj1 hj2 => hocc j (by omega) (by omega))
      (by rw [show k + 1 + d = k + (d + 1) by omega]; exact hfree)
    rw [probeLoop, hk0, hw]
    simp only [Bool.false_eq_true, if_false]
    rw [hnext, show k + (d + 1) = k + 1 + d by omega]
    simpa using hrec

/-- The probing loop returns the candidate with number `k` when that candidate is
free, the candidates before it are not, and `k` fits the 64-bit counter. -/
theorem uniqueName_eq_least (notExist : GoString → Bool) (targetFolder base : GoString)
    (k : Nat) (hlt : k < 2 ^ 63) (hk : notExist (candidate targetFolder base k) = true)
    (hmin : ∀ j, j < k → notExist (candidate targetFolder base j) = false) :
    uniqueName notExist targetFolder base = some (candidate targetFolder base k) := by
  have h := probeLoop_finds notExist targetFolder base k 0 (2 ^ 64 + 1) (by omega) (by omega)
    (fun j _ hj => hmin j (by omega)) (by simpa using hk)
  have h0 : candidate targetFolder base 0 = filepath.Join [targetFolder, base] := by
    simp [candidate]
  have hw : wrapInt64 (((0 : Nat) : Int) + 1) = 1 := by decide
  rw [hw, h0, Nat.zero_add] at h
  exact h

/-- The probing loop ends as soon as some candidate that fits the counter is free. -/
theorem uniqueName_isSome_of_free (notExist : GoString → Bool) (targetFolder base : GoString)
    (hfree : ∃ k : Nat, k < 2 ^ 63 ∧ notExist (candidate targetFolder base k) = true) :
    ∃ p, uniqueName notExist targetFolder base = some p := by
  classical
  have hex : ∃ k : Nat, notExist (candidate targetFolder base k) = true := by
    obtain ⟨k, _, h⟩ := hfree
    exact ⟨k, h⟩
  have hlt : Nat.find hex < 2 ^ 63 := by
    obtain ⟨k0, hk0, h⟩ := hfree
    exact lt_of_le_of_lt (Nat.find_min' hex h) hk0
  exact ⟨_, uniqueName_eq_least notExist targetFolder base (Nat.find hex) hlt
    (Nat.find_spec hex) (fun j hj => by simpa using Nat.find_min hex hj)⟩

/-- What the probing loop returns is the path it started with or a prefixed
candidate in the target folder. -/
theorem probeLoop_result (notExist : GoString → Bool) (targetFolder base : GoString)
    (fuel : Nat) : ∀ (i : Int) (dstPath p : GoString),
      probeLoop notExist targetFolder base fuel i dstPath = some p →
      p = dstPath ∨ ∃ j : Int, p = filepath.Join [targetFolder, prefixed j base] := by
  induction fuel with
  | zero => intro i dstPath p h; simp [probeLoop] at h
  | succ f ih =>
    intro i dstPath p h
    rw [probeLoop] at h
    by_cases hne : notExist dstPath = true
    · rw [if_pos hne] at h
      exact Or.inl (Option.some.inj h).symm
    · rw [if_neg hne] at h
      rcases ih _ _ _ h with h1 | ⟨j, hj⟩
      · exact Or.inr ⟨i, h1⟩
      · exact Or.inr ⟨j, hj⟩

/-- The destination of a call of `moveFileWithUniqueName`, when it gets as far as
computing one, is the base name of the source, possibly prefixed, in the
category folder of the source below the destination root. -/
theorem move_dst_in_category (caseTable : Char → Char) (w : World) (fs : FS)
    (srcPath dstDir : GoString) (dryRun : Bool) (r : MoveResult) (d : GoString)
    (hr : moveFileWithUniqueName caseTable w fs srcPath dstDir dryRun = some r)
    (hd : r.dst = some d) :
    d = filepath.Join [filepath.Join [dstDir, categoryFolder caseTable srcPath],
          filepath.Base srcPath] ∨
      ∃ j : Int, d = filepath.Join [filepath.Join [dstDir, categoryFolder caseTable srcPath],
          prefixed j (filepath.Base srcPath)] := by
  unfold moveFileWithUniqueName at hr
  simp only at hr
  generalize filepath.Join [dstDir, categoryFolder caseTable srcPath] = tf at hr ⊢
  rcases hens : ensureDir w fs tf with ⟨fs1, e1⟩
  rw [hens] at hr
  cases e1 with
  | some e =>
    simp only [Option.some.injEq] at hr
    subst hr
    simp at hd
  | none =>
    simp only at hr
    cases hwait : waitForCompleteFile w.statSize 5 with
    | some e =>
      rw [hwait] at hr
      simp only [Option.some.injEq] at hr
      subst hr
      simp at hd
    | none =>
      rw [hwait] at hr
      simp only at hr
      cases huniq : uniqueName (statNotExist w fs1) tf (filepath.Base srcPath) with
      | none => rw [huniq] at hr; simp at hr
      | some dstPath =>
        rw [huniq] at hr
        have hres := probeLoop_result _ _ _ _ _ _ _ huniq
        have hdst : r.dst = some dstPath := by
          simp only at hr
          split at hr
          · simp only [Option.some.injEq] at hr; subst hr; rfl
          · split at hr
            · simp only [Option.some.injEq] at hr; subst hr; rfl
            · split at hr
              · simp only [Option.some.injEq] at hr; subst hr; rfl
              · split at hr <;> (simp only [Option.some.injEq] at hr; subst hr; rfl)
        rw [hdst] at hd
        rw [← Option.some.inj hd]
        exact hres

/-- When the test of the probing loop never succeeds, the loop uses up whatever
rounds it is allowed. -/
theorem probeLoop_none (notExist : GoString → Bool) (targetFolder base : GoString)
    (h : ∀ p, notExist p = false) (fuel : Nat) :
    ∀ (i : Int) (dstPath : GoString),
      probeLoop notExist targetFolder base fuel i dstPath = none := by
  induction fuel with
  | zero => intro i dstPath; rfl
  | succ f ih =>
    intro i dstPath
    rw [probeLoop, h dstPath]
    simp only [Bool.false_eq_true, if_false]
    exact ih _ _

/-- When the test of the probing loop never succeeds, the loop never ends. -/
theorem uniqueName_none (notExist : GoString → Bool) (targetFolder base : GoString)
    (h : ∀ p, notExist p = false) : uniqueName notExist targetFolder base = none :=
  probeLoop_none notExist targetFolder base h _ _ _

/-- The probing loop of the program returns the candidate of smallest number that
`os.Stat` reports as not existing, when no `os.Stat` up to that candidate fails
for another reason: it is then the candidate of smallest number at which
nothing exists. -/
theorem uniqueName_stat_least (w : World) (fs : FS) (targetFolder base : GoString)
    (hfree : ∃ k : Nat, k < 2 ^ 63 ∧ fs.pathExists (candidate targetFolder base k) = false ∧
      ∀ j, j ≤ k → w.statDenied (candidate targetFolder base j) = false) :
    ∃ k : Nat, k < 2 ^ 63 ∧
      uniqueName (statNotExist w fs) targetFolder base = some (candidate targetFolder base k) ∧
      fs.pathExists (candidate targetFolder base k) = false ∧
      (∀ j, j < k → fs.pathExists (candidate targetFolder base j) = true) := by
  classical
  obtain ⟨k0, hk0, habs, hden⟩ := hfree
  have hex : ∃ k : Nat, fs.pathExists (candidate targetFolder base k) = false := ⟨k0, habs⟩
  have hle : Nat.find hex ≤ k0 := Nat.find_min' hex habs
  have hk : fs.pathExists (candidate targetFolder base (Nat.find hex)) = false :=
    Nat.find_spec hex
  have hmin : ∀ j, j < Nat.find hex →
      fs.pathExists (candidate targetFolder base j) = true := by
    intro j hj
    have := Nat.find_min hex hj
    simpa using this
  refine ⟨Nat.find hex, lt_of_le_of_lt hle hk0, ?_, hk, hmin⟩
  apply uniqueName_eq_least (statNotExist w fs) targetFolder base (Nat.find hex)
    (lt_of_le_of_lt hle hk0)
  · simp [statNotExist, hk, hden _ hle]
  · intro j hj
    simp [statNotExist, hmin j hj]


/-- The ASCII case fold used by both branches of `strings.ToLower`. -/
theorem unicodeToLower_ascii (caseTable : Char → Char) (c : Char) (h : c.toNat < 128) :
    strings.unicodeToLower caseTable c =
      if 'A'.toNat ≤ c.toNat ∧ c.toNat ≤ 'Z'.toNat then Char.ofNat (c.toNat + 32) else c := by
  unfold strings.unicodeToLower
  rw [if_pos (by omega)]

/-- Both branches of `strings.ToLower` map every rune through `unicode.ToLower`. -/
theorem ToLower_eq_map (caseTable : Char → Char) (s : GoString) :
    strings.ToLower caseTable s = s.map (strings.unicodeToLower caseTable) := by
  unfold strings.ToLower
  simp only
  split
  · rename_i hascii
    have hall : ∀ c ∈ s, c.toNat < 128 := by
      intro c hc
      have := List.all_eq_true.mp hascii c hc
      simpa using this
    split
    · rename_i hup
      have hnone : ∀ c ∈ s, ¬ ('A'.toNat ≤ c.toNat ∧ c.toNat ≤ 'Z'.toNat) := by
        intro c hc hcc
        have : s.any (fun c => decide ('A'.toNat ≤ c.toNat ∧ c.toNat ≤ 'Z'.toNat)) = true :=
          List.any_eq_true.mpr ⟨c, hc, by simpa using hcc⟩
        rw [this] at hup
        exact absurd hup (by decide)
      symm
      conv_rhs => rw [← List.map_id s]
      apply List.map_congr_left
      intro c hc
      rw [unicodeToLower_ascii caseTable c (hall c hc), if_neg (hnone c hc)]
      rfl
    · apply List.map_congr_left
      intro c hc
      rw [unicodeToLower_ascii caseTable c (hall c hc)]
  · rfl

/-- Folding an ASCII capital to its small letter does not change what
`unicode.ToLower` returns. -/
theorem unicodeToLower_asciiFold (caseTable : Char → Char) (c : Char) :
    strings.unicodeToLower caseTable (asciiFold c) = strings.unicodeToLower caseTable c := by
  unfold asciiFold
  split
  · rename_i h
    have hc : c = Char.ofNat c.toNat := (Char.ofNat_toNat c).symm
    have h1 : 65 ≤ c.toNat := h.1
    have h2 : c.toNat ≤ 90 := h.2
    generalize c.toNat = n at hc h1 h2
    subst hc
    interval_cases n <;> simp [strings.unicodeToLower]
  · rfl

/-- A lookup in an association list whose values are all non-empty returns the
empty string only when the key is absent. -/
theorem lookup_getD_eq_nil (l : List (GoString × GoString)) (hl : ∀ e ∈ l, e.2 ≠ [])
    (k : GoString) : (l.lookup k).getD [] = [] ↔ l.lookup k = none := by
  induction l with
  | nil => simp
  | cons e l ih =>
    obtain ⟨a, b⟩ := e
    have hb : b ≠ [] := hl (a, b) (List.mem_cons_self _ _)
    have ih2 := ih (fun e he => hl e (List.mem_cons_of_mem _ he))
    by_cases hk : k == a
    · simp [List.lookup, hk, hb]
    · simp only [List.lookup, hk]
      exact ih2

/-- A successful lookup returns the value of some entry of the list. -/
theorem lookup_some_mem (l : List (GoString × GoString)) (k v : GoString)
    (h : l.lookup k = some v) : ∃ a, (a, v) ∈ l := by
  induction l with
  | nil => simp at h
  | cons e l ih =>
    obtain ⟨a, b⟩ := e
    by_cases hk : k == a
    · simp only [List.lookup, hk] at h
      exact ⟨a, by simp [Option.some.inj h]⟩
    · simp only [List.lookup, hk] at h
      obtain ⟨a2, h2⟩ := ih h
      exact ⟨a2, List.mem_cons_of_mem _ h2⟩

/-- C1. The category chosen for a source path is `typeMap[lowercase(ext)]` when the
lower-cased extension is a key of `typeMap`, and `other` when it is not, which
includes every path without extension; so two paths whose extensions have the
same lower-case form, in particular two that differ only in the case of ASCII
letters, get the same category.  The destination `moveFileWithUniqueName`
computes lies in the folder of that category below the destination root. -/
theorem categoryFolder_spec (caseTable : Char → Char) :
    (∀ srcPath v, typeMap.lookup (strings.ToLower caseTable (filepath.Ext srcPath)) = some v →
        categoryFolder caseTable srcPath = v) ∧
    (∀ srcPath, typeMap.lookup (strings.ToLower caseTable (filepath.Ext srcPath)) = none →
        categoryFolder caseTable srcPath = "other".toList) ∧
    (∀ srcPath, filepath.Ext srcPath = [] → categoryFolder caseTable srcPath = "other".toList) ∧
    (∀ p q, strings.ToLower caseTable (filepath.Ext p) = strings.ToLower caseTable (filepath.Ext q) →
        categoryFolder caseTable p = categoryFolder caseTable q) ∧
    (∀ p q, differOnlyInCase (filepath.Ext p) (filepath.Ext q) = true →
        categoryFolder caseTable p = categoryFolder caseTable q) ∧
    (∀ w fs srcPath dstDir dryRun r d,
      moveFileWithUniqueName caseTable w fs srcPath dstDir dryRun = some r → r.dst = some d →
      d = filepath.Join [filepath.Join [dstDir, categoryFolder caseTable srcPath],
            filepath.Base srcPath] ∨
        ∃ j : Int, d = filepath.Join [filepath.Join [dstDir, categoryFolder caseTable srcPath],
            prefixed j (filepath.Base srcPath)]) := by
  have hvals : ∀ e ∈ typeMap, e.2 ≠ [] := by decide
  have hsome : ∀ srcPath v,
      typeMap.lookup (strings.ToLower caseTable (filepath.Ext srcPath)) = some v →
        categoryFolder caseTable srcPath = v := by
    intro srcPath v h
    have hne : v ≠ [] := by
      obtain ⟨a, ha⟩ := lookup_some_mem typeMap _ v h
      exact hvals _ ha
    simp [categoryFolder, typeMapIndex, h, hne]
  have hnone : ∀ srcPath,
      typeMap.lookup (strings.ToLower caseTable (filepath.Ext srcPath)) = none →
        categoryFolder caseTable srcPath = "other".toList := by
    intro srcPath h
    simp [categoryFolder, typeMapIndex, h]
  have hsame : ∀ p q,
      strings.ToLower caseTable (filepath.Ext p) = strings.ToLower caseTable (filepath.Ext q) →
        categoryFolder caseTable p = categoryFolder caseTable q := by
    intro p q h
    simp only [categoryFolder, h]
  refine ⟨hsome, hnone, ?_, hsame, ?_,
    fun w fs srcPath dstDir dryRun r d hr hd =>
      move_dst_in_category caseTable w fs srcPath dstDir dryRun r d hr hd⟩
  · intro srcPath hext
    apply hnone
    rw [hext, ToLower_eq_map, List.map_nil]
    decide
  · intro p q h
    apply hsame
    rw [ToLower_eq_map, ToLower_eq_map]
    have h2 : (filepath.Ext p).map asciiFold = (filepath.Ext q).map asciiFold := by
      simpa [differOnlyInCase] using h
    have h3 := congrArg (List.map (strings.unicodeToLower caseTable)) h2
    simpa [List.map_map, Function.comp_def, unicodeToLower_asciiFold] using h3

/-- The category of `in/Photo.JPG` is `pics`, that of `in/README` is `other`, and
`x.JPG` and `y.jpg` get the same category. -/
theorem categoryFolder_spec_witness :
    categoryFolder id "in/Photo.JPG".toList = "pics".toList ∧
      categoryFolder id "in/README".toList = "other".toList ∧
      categoryFolder id "x.JPG".toList = categoryFolder id "y.jpg".toList :=
  ⟨(categoryFolder_spec id).1 "in/Photo.JPG".toList "pics".toList (by decide),
    (categoryFolder_spec id).2.2.1 "in/README".toList (by decide),
    (categoryFolder_spec id).2.2.2.2.1 "x.JPG".toList "y.jpg".toList (by decide)⟩


/-- The counter of the probing loop is a 64-bit integer: after `2 ^ 63 - 1` comes
`- 2 ^ 63`, and the name formed with it is not `9223372036854775808_base`. -/
theorem counter_wraps_after_max :
    wrapInt64 ((2 ^ 63 - 1 : Int) + 1) = - 2 ^ 63 ∧
      prefixed (wrapInt64 ((2 ^ 63 - 1 : Int) + 1)) "a".toList
        = "-9223372036854775808_a".toList := by
  decide

/-- C2, the claim refuted. The category folder `organized/pics` is empty, so every
candidate name is free, but it may not be searched: every `os.Stat` of the loop
fails with "permission denied", `os.IsNotExist` is false each time, and the
probing loop never ends. -/
theorem probing_never_ends_when_stat_denied :
    lockedFS.pathExists (candidate "organized/pics".toList "photo.jpg".toList 0) = false ∧
    lockedFS.pathExists (candidate "organized/pics".toList "photo.jpg".toList 1) = false ∧
    uniqueName (statNotExist deniedWorld lockedFS) "organized/pics".toList
      "photo.jpg".toList = none :=
  ⟨by decide, by decide, uniqueName_none _ _ _ (fun _ => rfl)⟩

/-- C2, amended. When `os.Stat` reports "not exist" for some candidate name whose
number fits the 64-bit counter, the probing loop ends and returns the first
candidate, in the order `base`, `1_base`, `2_base`, …, for which `os.Stat` reports
"not exist"; a candidate on which `os.Stat` fails for another reason is passed
over like an existing one.  The returned path does not exist in the state
probed.  When moreover no `os.Stat` up to a candidate at which nothing exists
fails for another reason, the path returned is `targetFolder/base` when that does
not exist, and otherwise `targetFolder/k_base` for the smallest `k ≥ 1` that does
not exist. -/
theorem uniqueName_first_free (w : World) (fs : FS) (targetFolder base : GoString) :
    ((∃ k : Nat, k < 2 ^ 63 ∧ statNotExist w fs (candidate targetFolder base k) = true) →
      ∃ k : Nat,
        uniqueName (statNotExist w fs) targetFolder base
          = some (candidate targetFolder base k) ∧
        fs.pathExists (candidate targetFolder base k) = false ∧
        w.statDenied (candidate targetFolder base k) = false ∧
        (∀ j, j < k → fs.pathExists (candidate targetFolder base j) = true ∨
          w.statDenied (candidate targetFolder base j) = true)) ∧
    ((∃ k : Nat, k < 2 ^ 63 ∧ fs.pathExists (candidate targetFolder base k) = false ∧
        ∀ j, j ≤ k → w.statDenied (candidate targetFolder base j) = false) →
      ∃ k : Nat,
        uniqueName (statNotExist w fs) targetFolder base
          = some (candidate targetFolder base k) ∧
        fs.pathExists (candidate targetFolder base k) = false ∧
        (∀ j, j < k → fs.pathExists (candidate targetFolder base j) = true) ∧
        (k = 0 ↔ fs.pathExists (filepath.Join [targetFolder, base]) = false)) := by
  classical
  constructor
  · rintro ⟨k0, hk0, hfree⟩
    have hex : ∃ k : Nat, statNotExist w fs (candidate targetFolder base k) = true :=
      ⟨k0, hfree⟩
    have hk := Nat.find_spec hex
    have hlt : Nat.find hex < 2 ^ 63 := lt_of_le_of_lt (Nat.find_min' hex hfree) hk0
    have hmin : ∀ j, j < Nat.find hex →
        statNotExist w fs (candidate targetFolder base j) = false := by
      intro j hj
      simpa using Nat.find_min hex hj
    generalize Nat.find hex = n at hk hlt hmin
    refine ⟨n, uniqueName_eq_least (statNotExist w fs) targetFolder base _ hlt hk hmin,
      ?_, ?_, ?_⟩
    · simp only [statNotExist, Bool.and_eq_true, Bool.not_eq_true'] at hk
      exact hk.2
    · simp only [statNotExist, Bool.and_eq_true, Bool.not_eq_true'] at hk
      exact hk.1
    · intro j hj
      have := hmin j hj
      simp only [statNotExist, Bool.and_eq_false_iff, Bool.not_eq_false'] at this
      exact this.symm
  · intro hfree
    obtain ⟨k, _, huniq, habs, hmin⟩ := uniqueName_stat_least w fs targetFolder base hfree
    refine ⟨k, huniq, habs, hmin, ?_⟩
    have h0 : candidate targetFolder base 0 = filepath.Join [targetFolder, base] := by
      simp [candidate]
    constructor
    · intro hk
      rw [← h0, ← hk]
      exact habs
    · intro h
      by_contra hne
      have := hmin 0 (Nat.pos_of_ne_zero hne)
      rw [h0, h] at this
      exact absurd this (by simp)

/-- The folder `organized/docs` already holds `foo.txt` and `1_foo.txt`: the loop
returns `organized/docs/2_foo.txt`. -/
theorem uniqueName_first_free_witness :
    uniqueName (statNotExist quietWorld collisionFS) "organized/docs".toList "foo.txt".toList
        = some "organized/docs/2_foo.txt".toList ∧
    ∃ k : Nat,
      uniqueName (statNotExist quietWorld collisionFS) "organized/docs".toList
          "foo.txt".toList
        = some (candidate "organized/docs".toList "foo.txt".toList k) ∧
      collisionFS.pathExists (candidate "organized/docs".toList "foo.txt".toList k) = false ∧
      (∀ j, j < k →
        collisionFS.pathExists (candidate "organized/docs".toList "foo.txt".toList j) = true) ∧
      (k = 0 ↔ collisionFS.pathExists
        (filepath.Join ["organized/docs".toList, "foo.txt".toList]) = false) :=
  ⟨by decide,
    (uniqueName_first_free quietWorld collisionFS "organized/docs".toList "foo.txt".toList).2
      ⟨2, by decide, by decide, fun j hj => rfl⟩⟩

/-- When the category folder is there and the file is stable, a probing loop that
never ends makes the whole of `moveFileWithUniqueName` never return. -/
theorem move_none_of_probe_none (caseTable : Char → Char) (w : World) (fs fs1 : FS)
    (srcPath dstDir : GoString) (dryRun : Bool)
    (h1 : ensureDir w fs (filepath.Join [dstDir, categoryFolder caseTable srcPath])
      = (fs1, none))
    (h2 : waitForCompleteFile w.statSize 5 = none)
    (h3 : uniqueName (statNotExist w fs1)
      (filepath.Join [dstDir, categoryFolder caseTable srcPath])
      (filepath.Base srcPath) = none) :
    moveFileWithUniqueName caseTable w fs srcPath dstDir dryRun = none := by
  unfold moveFileWithUniqueName
  simp only [h1, h2, h3]

/-- The whole call in the world where every `os.Stat` of the loop is denied: the
category folder is there, the file is stable, and `moveFileWithUniqueName` never
returns. -/
theorem move_never_returns_when_stat_denied :
    moveFileWithUniqueName id deniedWorld lockedFS "src/photo.jpg".toList
      "organized".toList false = none :=
  move_none_of_probe_none id deniedWorld lockedFS lockedFS _ _ false (by decide) (by decide)
    (uniqueName_none _ _ _ (fun _ => rfl))


/-- A call of `moveFileWithUniqueName` on an existing source, not a dry run, that
returns: whatever the outcome of the rename, the copy and the removal, the
content is at the source or at the destination afterwards; it is at the
destination only when no error is returned; an error is returned whenever it is
still at the source. -/
theorem move_result_keeps_content (caseTable : Char → Char) (w : World) (fs : FS)
    (srcPath dstDir : GoString) (c : List Nat) (hsrc : fs.readFile srcPath = some c)
    (r : MoveResult)
    (hr : moveFileWithUniqueName caseTable w fs srcPath dstDir false = some r) :
    (r.fs.readFile srcPath = some c ∨ ∃ dst, r.dst = some dst ∧ r.fs.readFile dst = some c) ∧
    (r.err = none →
      r.fs.readFile srcPath = none ∧ ∃ dst, r.dst = some dst ∧ r.fs.readFile dst = some c) ∧
    (r.fs.readFile srcPath ≠ none → r.fs.readFile srcPath = some c ∧ r.err ≠ none) := by
  unfold moveFileWithUniqueName at hr
  simp only at hr
  generalize htf : filepath.Join [dstDir, categoryFolder caseTable srcPath] = tf at hr
  have hfs1 := ensureDir_readFile w fs tf srcPath
  rcases hens : ensureDir w fs tf with ⟨fs1, e1⟩
  rw [hens] at hr hfs1
  simp only at hfs1
  rw [hsrc] at hfs1
  cases e1 with
  | some e =>
    simp only [Option.some.injEq] at hr
    subst hr
    simp [hfs1]
  | none =>
    simp only at hr
    cases hwait : waitForCompleteFile w.statSize 5 with
    | some e =>
      rw [hwait] at hr
      simp only [Option.some.injEq] at hr
      subst hr
      simp [hfs1]
    | none =>
      rw [hwait] at hr
      simp only at hr
      cases huniq : uniqueName (statNotExist w fs1) tf (filepath.Base srcPath) with
      | none => rw [huniq] at hr; simp at hr
      | some dstPath =>
        rw [huniq] at hr
        simp only [Bool.false_eq_true, if_false] at hr
        have hfree := uniqueName_notExist _ _ _ _ huniq
        have hdstNone : fs1.readFile dstPath = none := by
          simp only [statNotExist, FS.pathExists, Bool.and_eq_true, Bool.not_eq_true',
            Bool.or_eq_false_iff] at hfree
          simpa using hfree.2.1
        have hne : filepath.Clean srcPath ≠ filepath.Clean dstPath := by
          intro h
          have heq : fs1.readFile srcPath = fs1.readFile dstPath := by
            simp only [FS.readFile, h]
          rw [hfs1, hdstNone] at heq
          exact absurd heq (by simp)
        simp only [rename, hfs1] at hr
        by_cases hren : w.renameFails = true
        · have hne2 : ¬ filepath.Clean dstPath = filepath.Clean srcPath := fun h => hne h.symm
          simp only [hren, if_true, copyFile, hfs1, if_neg hne2] at hr
          cases hcopy : w.copy with
          | openFails =>
            simp only [hcopy, Option.some.injEq] at hr
            subst hr
            simp [hfs1]
          | createFails =>
            simp only [hcopy, Option.some.injEq] at hr
            subst hr
            simp [hfs1]
          | writeFails n =>
            simp only [hcopy, Option.some.injEq] at hr
            subst hr
            simp [readFile_writeFile_ne fs1 dstPath srcPath _ hne, hfs1]
          | ok =>
            have hsrc3 : (fs1.writeFile dstPath c).readFile srcPath = some c := by
              rw [readFile_writeFile_ne fs1 dstPath srcPath _ hne, hfs1]
            simp only [hcopy, remove, hsrc3] at hr
            by_cases hrm : w.removeFails = true
            · simp only [hrm, if_true, Option.some.injEq] at hr
              subst hr
              simp [hsrc3]
            · simp only [hrm, Bool.false_eq_true, if_false, Option.some.injEq] at hr
              subst hr
              have h1 : ((fs1.writeFile dstPath c).removeFile srcPath).readFile srcPath = none :=
                readFile_removeFile_same _ _
              have h2 : ((fs1.writeFile dstPath c).removeFile srcPath).readFile dstPath = some c := by
                rw [readFile_removeFile_ne _ srcPath dstPath (Ne.symm hne),
                  readFile_writeFile_same]
              simp [h1, h2]
        · simp only [hren, Bool.false_eq_true, if_false, Option.some.injEq] at hr
          subst hr
          have h1 : ((fs1.removeFile srcPath).writeFile dstPath c).readFile srcPath = none := by
            rw [readFile_writeFile_ne _ dstPath srcPath _ hne, readFile_removeFile_same]
          have h2 : ((fs1.removeFile srcPath).writeFile dstPath c).readFile dstPath = some c :=
            readFile_writeFile_same _ _ _
          simp [h1, h2]

/-- A call of `moveFileWithUniqueName` returns unless it gets as far as the probing
loop and that loop runs for ever. -/
theorem move_returns (caseTable : Char → Char) (w : World) (fs : FS)
    (srcPath dstDir : GoString) (dryRun : Bool)
    (h : ∀ fs1, ensureDir w fs (filepath.Join [dstDir, categoryFolder caseTable srcPath])
          = (fs1, none) → waitForCompleteFile w.statSize 5 = none →
        ∃ p, uniqueName (statNotExist w fs1)
          (filepath.Join [dstDir, categoryFolder caseTable srcPath]) (filepath.Base srcPath)
            = some p) :
    ∃ r, moveFileWithUniqueName caseTable w fs srcPath dstDir dryRun = some r := by
  unfold moveFileWithUniqueName
  simp only
  generalize filepath.Join [dstDir, categoryFolder caseTable srcPath] = tf at h
  rcases hens : ensureDir w fs tf with ⟨fs1, e1⟩
  cases e1 with
  | some e => exact ⟨_, rfl⟩
  | none =>
    simp only
    cases hwait : waitForCompleteFile w.statSize 5 with
    | some e => exact ⟨_, rfl⟩
    | none =>
      obtain ⟨p, hp⟩ := h fs1 hens hwait
      simp only [hp]
      split
      · exact ⟨_, rfl⟩
      · split
        · exact ⟨_, rfl⟩
        · split
          · exact ⟨_, rfl⟩
          · split <;> exact ⟨_, rfl⟩

/-- C6. A call of `moveFileWithUniqueName` on an existing source file that is not a
dry run never loses the file, whatever the outcome of the rename, the fallback
copy and the removal of the source: when the call returns, the content is at the
source or at the destination (or both); when it returns no error the content is
at the destination only; whenever something is still at the source it is the
content, and the call returns an error.  The call returns whenever the probing
loop ends, and so whenever `os.Stat` reports "not exist" for some candidate
name whose number fits the 64-bit counter. -/
theorem moveFileWithUniqueName_never_loses (caseTable : Char → Char) (w : World) (fs : FS)
    (srcPath dstDir : GoString) (c : List Nat) (hsrc : fs.readFile srcPath = some c) :
    (∀ r, moveFileWithUniqueName caseTable w fs srcPath dstDir false = some r →
      (r.fs.readFile srcPath = some c ∨
        ∃ dst, r.dst = some dst ∧ r.fs.readFile dst = some c) ∧
      (r.err = none →
        r.fs.readFile srcPath = none ∧ ∃ dst, r.dst = some dst ∧ r.fs.readFile dst = some c) ∧
      (r.fs.readFile srcPath ≠ none → r.fs.readFile srcPath = some c ∧ r.err ≠ none)) ∧
    ((∀ fs1, ensureDir w fs (filepath.Join [dstDir, categoryFolder caseTable srcPath])
          = (fs1, none) → waitForCompleteFile w.statSize 5 = none →
        ∃ p, uniqueName (statNotExist w fs1)
          (filepath.Join [dstDir, categoryFolder caseTable srcPath]) (filepath.Base srcPath)
            = some p) →
      ∃ r, moveFileWithUniqueName caseTable w fs srcPath dstDir false = some r) ∧
    ((∃ k : Nat, k < 2 ^ 63 ∧
        statNotExist w
          (ensureDir w fs (filepath.Join [dstDir, categoryFolder caseTable srcPath])).1
          (candidate (filepath.Join [dstDir, categoryFolder caseTable srcPath])
            (filepath.Base srcPath) k) = true) →
      ∃ r, moveFileWithUniqueName caseTable w fs srcPath dstDir false = some r) := by
  refine ⟨fun r hr => move_result_keeps_content caseTable w fs srcPath dstDir c hsrc r hr,
    fun h => move_returns caseTable w fs srcPath dstDir false h, ?_⟩
  rintro ⟨k, hk, hfree⟩
  apply move_returns
  intro fs1 hens _
  rw [hens] at hfree
  exact uniqueName_isSome_of_free _ _ _ ⟨k, hk, hfree⟩

/-- The rename fails and the copy is cut short: the source keeps its content and
the call returns an error. -/
theorem moveFileWithUniqueName_never_loses_witness :
    scenarioFS.readFile "src/photo.jpg".toList = some [1, 2, 3] ∧
      ∃ r, moveFileWithUniqueName id crossDeviceWorld scenarioFS "src/photo.jpg".toList
          "organized".toList false = some r ∧
        r.fs.readFile "src/photo.jpg".toList = some [1, 2, 3] ∧ r.err ≠ none :=
  ⟨by decide,
    _, rfl,
    ((moveFileWithUniqueName_never_loses id crossDeviceWorld scenarioFS "src/photo.jpg".toList
      "organized".toList [1, 2, 3] (by decide)).1 _ rfl).2.2 (by decide)⟩


/-- C4. A dry run on the scenario of the specification (source `src/photo.jpg`,
empty destination `organized`) returns no error and prints the intended move, but
it has created the category folder `organized/pics`: the destination is no longer
empty and the file system is not the one the call started from. -/
theorem dryRun_creates_category_folder :
    ∃ r, moveFileWithUniqueName id quietWorld scenarioFS "src/photo.jpg".toList
        "organized".toList true = some r ∧
      r.err = none ∧
      r.out = [Msg.dryRun "src/photo.jpg".toList "organized/pics/photo.jpg".toList] ∧
      scenarioFS.pathExists "organized/pics".toList = false ∧
      r.fs.pathExists "organized/pics".toList = true ∧
      r.fs ≠ scenarioFS :=
  ⟨_, rfl, by decide⟩

/-- C5, the claim refuted. A dry run on a source whose size changes between any two
readings returns the "still changing" error. -/
theorem dryRun_fails_when_still_changing :
    ∃ r, moveFileWithUniqueName id growingWorld scenarioFS "src/photo.jpg".toList
        "organized".toList true = some r ∧
      r.err = some GoError.stillChanging :=
  ⟨_, rfl, by decide⟩

/-- A dry run that gets past the stability wait and returns has no error. -/
theorem dryRun_no_error_after_wait (caseTable : Char → Char) (w : World) (fs : FS)
    (srcPath dstDir : GoString)
    (hdir : (ensureDir w fs (filepath.Join [dstDir, categoryFolder caseTable srcPath])).2 = none)
    (hwait : waitForCompleteFile w.statSize 5 = none) (r : MoveResult)
    (hr : moveFileWithUniqueName caseTable w fs srcPath dstDir true = some r) :
    r.err = none := by
  unfold moveFileWithUniqueName at hr
  simp only at hr
  generalize filepath.Join [dstDir, categoryFolder caseTable srcPath] = tf at hdir hr
  rcases hens : ensureDir w fs tf with ⟨fs1, e1⟩
  rw [hens] at hdir hr
  simp only at hdir
  subst hdir
  simp only [hwait] at hr
  cases huniq : uniqueName (statNotExist w fs1) tf (filepath.Base srcPath) with
  | none => rw [huniq] at hr; simp at hr
  | some p =>
    rw [huniq] at hr
    simp only [if_true, Option.some.injEq] at hr
    rw [← hr]

/-- C5, amended. In a dry run for which the category folder is in place
(`ensureDir` returns no error): when the stability wait fails, the call returns
the error of the wait; when the wait succeeds, the call returns no error
whenever it returns, and it returns whenever `os.Stat` reports "not exist" for
some candidate name whose number fits the 64-bit counter. -/
theorem dryRun_error_iff_wait_fails (caseTable : Char → Char) (w : World) (fs : FS)
    (srcPath dstDir : GoString)
    (hdir : (ensureDir w fs (filepath.Join [dstDir, categoryFolder caseTable srcPath])).2 = none) :
    (∀ e, waitForCompleteFile w.statSize 5 = some e →
      ∃ r, moveFileWithUniqueName caseTable w fs srcPath dstDir true = some r ∧
        r.err = some e) ∧
    (waitForCompleteFile w.statSize 5 = none →
      ∀ r, moveFileWithUniqueName caseTable w fs srcPath dstDir true = some r →
        r.err = none) ∧
    (waitForCompleteFile w.statSize 5 = none →
      (∃ k : Nat, k < 2 ^ 63 ∧
        statNotExist w
          (ensureDir w fs (filepath.Join [dstDir, categoryFolder caseTable srcPath])).1
          (candidate (filepath.Join [dstDir, categoryFolder caseTable srcPath])
            (filepath.Base srcPath) k) = true) →
      ∃ r, moveFileWithUniqueName caseTable w fs srcPath dstDir true = some r ∧
        r.err = none) := by
  refine ⟨?_, fun hwait r hr =>
    dryRun_no_error_after_wait caseTable w fs srcPath dstDir hdir hwait r hr, ?_⟩
  · intro e hwait
    unfold moveFileWithUniqueName
    simp only
    generalize filepath.Join [dstDir, categoryFolder caseTable srcPath] = tf at hdir
    rcases hens : ensureDir w fs tf with ⟨fs1, e1⟩
    rw [hens] at hdir
    simp only at hdir
    subst hdir
    simp only [hwait]
    exact ⟨_, rfl, rfl⟩
  · rintro hwait ⟨k, hk, hfree⟩
    obtain ⟨r, hr⟩ := move_returns caseTable w fs srcPath dstDir true (by
      intro fs1 hens _
      rw [hens] at hfree
      exact uniqueName_isSome_of_free _ _ _ ⟨k, hk, hfree⟩)
    exact ⟨r, hr, dryRun_no_error_after_wait caseTable w fs srcPath dstDir hdir hwait r hr⟩

/-- A dry run on the scenario of the specification with a source of stable size. -/
theorem dryRun_error_iff_wait_fails_witness :
    (ensureDir quietWorld scenarioFS
        (filepath.Join ["organized".toList, categoryFolder id "src/photo.jpg".toList])).2 = none ∧
      ∃ r, moveFileWithUniqueName id quietWorld scenarioFS "src/photo.jpg".toList
          "organized".toList true = some r ∧ r.err = none :=
  ⟨by decide,
    (dryRun_error_iff_wait_fails id quietWorld scenarioFS "src/photo.jpg".toList
      "organized".toList (by decide)).2.2 (by decide) ⟨0, by decide, by decide⟩⟩



/-! ### Splitting a path into elements and joining elements -/

theorem splitSep_ne_nil (s : GoString) : splitSep s ≠ [] := by
  cases s with
  | nil => simp [splitSep]
  | cons c cs =>
    unfold splitSep
    split
    · simp
    · split <;> simp

theorem splitSep_cons_sep (cs : GoString) : splitSep (Separator :: cs) = [] :: splitSep cs := by
  rw [splitSep, if_pos rfl]

theorem splitSep_cons_of_ne (c : Char) (cs : GoString) (hc : c ≠ Separator) :
    ∃ h t, splitSep cs = h :: t ∧ splitSep (c :: cs) = (c :: h) :: t := by
  rcases hs : splitSep cs with _ | ⟨h, t⟩
  · exact absurd hs (splitSep_ne_nil cs)
  · refine ⟨h, t, rfl, ?_⟩
    rw [splitSep, if_neg hc, hs]

/-- No element of a split path contains a separator. -/
theorem splitSep_noSep (s : GoString) : ∀ e ∈ splitSep s, Separator ∉ e := by
  induction s with
  | nil => simp [splitSep]
  | cons c cs ih =>
    by_cases hc : c = Separator
    · subst hc
      rw [splitSep_cons_sep]
      intro e he
      rcases List.mem_cons.mp he with rfl | he
      · simp
      · exact ih e he
    · obtain ⟨h, t, hs, hst⟩ := splitSep_cons_of_ne c cs hc
      rw [hst]
      rw [hs] at ih
      intro e he
      rcases List.mem_cons.mp he with rfl | he
      · intro hmem
        rcases List.mem_cons.mp hmem with h1 | h1
        · exact hc h1.symm
        · exact ih h (List.mem_cons_self _ _) h1
      · exact ih e (List.mem_cons_of_mem _ he)

/-- A string without separator is a single element. -/
theorem splitSep_of_noSep (e : GoString) (h : Separator ∉ e) : splitSep e = [e] := by
  induction e with
  | nil => rfl
  | cons c cs ih =>
    have hc : c ≠ Separator := fun hc => h (by simp [hc])
    have hcs : Separator ∉ cs := fun hm => h (List.mem_cons_of_mem _ hm)
    rw [splitSep, if_neg hc, ih hcs]

/-- The elements of `a/b` are the elements of `a` followed by the elements of `b`. -/
theorem splitSep_append_sep (a b : GoString) :
    splitSep (a ++ Separator :: b) = splitSep a ++ splitSep b := by
  induction a with
  | nil => simp [splitSep]
  | cons c cs ih =>
    by_cases hc : c = Separator
    · subst hc
      rw [List.cons_append, splitSep_cons_sep, splitSep_cons_sep, ih, List.cons_append]
    · obtain ⟨h, t, hs, hst⟩ := splitSep_cons_of_ne c cs hc
      rw [hst, List.cons_append, splitSep, if_neg hc, ih, hs]
      rfl

theorem joinSep_nil : joinSep [] = [] := rfl

theorem joinSep_singleton (e : GoString) : joinSep [e] = e := by
  simp [joinSep, List.intercalate]

theorem joinSep_cons_cons (e e2 : GoString) (es : List GoString) :
    joinSep (e :: e2 :: es) = e ++ Separator :: joinSep (e2 :: es) := by
  simp [joinSep, List.intercalate]

/-- Joining and splitting again gives back elements that hold no separator. -/
theorem splitSep_joinSep (es : List GoString) (hne : es ≠ [])
    (h : ∀ e ∈ es, Separator ∉ e) : splitSep (joinSep es) = es := by
  induction es with
  | nil => exact absurd rfl hne
  | cons e es ih =>
    cases es with
    | nil =>
      rw [joinSep_singleton]
      exact splitSep_of_noSep e (h e (List.mem_cons_self _ _))
    | cons e2 es =>
      rw [joinSep_cons_cons, splitSep_append_sep,
        splitSep_of_noSep e (h e (List.mem_cons_self _ _)),
        ih (by simp) (fun x hx => h x (List.mem_cons_of_mem _ hx))]
      rfl

theorem joinSep_append_singleton (es : List GoString) (hne : es ≠ []) (e : GoString) :
    joinSep (es ++ [e]) = joinSep es ++ Separator :: e := by
  induction es with
  | nil => exact absurd rfl hne
  | cons a es ih =>
    cases es with
    | nil => simp [joinSep_cons_cons, joinSep_singleton]
    | cons a2 es =>
      rw [List.cons_append, List.cons_append, joinSep_cons_cons, ← List.cons_append,
        ih (by simp), joinSep_cons_cons]
      simp



/-! ### The elements of a cleaned path -/

theorem validName_iff (e : GoString) :
    validName e = true ↔ e ≠ [] ∧ Separator ∉ e ∧ e ≠ ['.'] ∧ e ≠ dotdot := by
  simp [validName]

theorem cleanStep_valid (rooted : Bool) (stack : List GoString) (e : GoString)
    (h : validName e = true) : cleanStep rooted stack e = e :: stack := by
  obtain ⟨h1, _, h3, h4⟩ := (validName_iff e).mp h
  simp [cleanStep, h1, h3, h4]

theorem cleanStep_empty (rooted : Bool) (stack : List GoString) :
    cleanStep rooted stack [] = stack := by
  simp [cleanStep]

theorem dotdot_not_valid : validName dotdot = false := by decide

theorem cleanStep_normal (rooted : Bool) (stack : List GoString) (e : GoString)
    (hs : NormalStack rooted stack) (he : Separator ∉ e) :
    NormalStack rooted (cleanStep rooted stack e) := by
  obtain ⟨names, k, rfl, hk, hnames⟩ := hs
  by_cases h1 : e = [] ∨ e = ['.']
  · have : cleanStep rooted (names ++ List.replicate k dotdot) e
        = names ++ List.replicate k dotdot := by
      simp only [cleanStep, if_pos h1]
    rw [this]
    exact ⟨names, k, rfl, hk, hnames⟩
  · by_cases h2 : e = dotdot
    · subst h2
      cases names with
      | nil =>
        cases k with
        | zero =>
          cases rooted with
          | true => exact ⟨[], 0, by simp [cleanStep, dotdot], by simp, by simp⟩
          | false => exact ⟨[], 1, by simp [cleanStep, dotdot], by simp, by simp⟩
        | succ k =>
          have hr : rooted = false := by
            cases rooted with
            | true => exact absurd (hk rfl) (by simp)
            | false => rfl
          subst hr
          refine ⟨[], k + 2, ?_, by simp, by simp⟩
          simp [cleanStep, List.replicate_succ, dotdot]
      | cons n names =>
        have hn : n ≠ dotdot := by
          intro h
          have := hnames n (List.mem_cons_self _ _)
          rw [h, dotdot_not_valid] at this
          exact absurd this (by simp)
        refine ⟨names, k, ?_, hk, fun x hx => hnames x (List.mem_cons_of_mem _ hx)⟩
        have hd : ¬ (dotdot = [] ∨ dotdot = ['.']) := by decide
        simp only [cleanStep, if_neg hd, List.cons_append, if_true, ne_eq, hn,
          not_false_eq_true]
    · have hv : validName e = true := by
        rw [validName_iff]
        exact ⟨fun h => h1 (Or.inl h), he, fun h => h1 (Or.inr h), h2⟩
      rw [cleanStep_valid rooted _ e hv]
      refine ⟨e :: names, k, by simp, hk, ?_⟩
      intro x hx
      rcases List.mem_cons.mp hx with rfl | hx
      · exact hv
      · exact hnames x hx

theorem foldl_cleanStep_normal (rooted : Bool) (es : List GoString) :
    ∀ stack, NormalStack rooted stack → (∀ e ∈ es, Separator ∉ e) →
      NormalStack rooted (es.foldl (cleanStep rooted) stack) := by
  induction es with
  | nil => intro stack hs _; exact hs
  | cons e es ih =>
    intro stack hs he
    rw [List.foldl_cons]
    exact ih _ (cleanStep_normal rooted stack e hs (he e (List.mem_cons_self _ _)))
      (fun x hx => he x (List.mem_cons_of_mem _ hx))

/-- The elements of a cleaned path are `..` elements (only when the path is not
rooted) followed by proper names. -/
theorem cleanElems_normal (p : GoString) : NormalElems (IsAbs p) (cleanElems p) := by
  have h := foldl_cleanStep_normal (IsAbs p) (splitSep p) [] ⟨[], 0, by simp, by simp, by simp⟩
    (splitSep_noSep p)
  obtain ⟨names, k, hst, hk, hnames⟩ := h
  refine ⟨k, names.reverse, ?_, hk, ?_⟩
  · unfold cleanElems
    rw [hst]
    simp
  · intro e he
    exact hnames e (List.mem_reverse.mp he)

theorem foldl_cleanStep_names (rooted : Bool) (names : List GoString)
    (h : ∀ e ∈ names, validName e = true) :
    ∀ stack, names.foldl (cleanStep rooted) stack = names.reverse ++ stack := by
  induction names with
  | nil => intro stack; rfl
  | cons n names ih =>
    intro stack
    rw [List.foldl_cons, cleanStep_valid rooted stack n (h n (List.mem_cons_self _ _)),
      ih (fun x hx => h x (List.mem_cons_of_mem _ hx))]
    simp

theorem foldl_cleanStep_dotdots (k : Nat) :
    ∀ j, (List.replicate k dotdot).foldl (cleanStep false) (List.replicate j dotdot)
      = List.replicate (j + k) dotdot := by
  induction k with
  | zero => intro j; rfl
  | succ k ih =>
    intro j
    rw [List.replicate_succ, List.foldl_cons]
    have : cleanStep false (List.replicate j dotdot) dotdot = List.replicate (j + 1) dotdot := by
      cases j with
      | zero => simp [cleanStep, dotdot]
      | succ j => simp [cleanStep, List.replicate_succ, dotdot]
    rw [this, ih (j + 1)]
    congr 1
    omega

/-- Cleaning elements that already have the shape of a cleaned path changes
nothing. -/
theorem foldl_cleanStep_of_normal (rooted : Bool) (es : List GoString)
    (h : NormalElems rooted es) : es.foldl (cleanStep rooted) [] = es.reverse := by
  obtain ⟨k, names, rfl, hk, hnames⟩ := h
  cases rooted with
  | true =>
    have := hk rfl
    subst this
    simp only [List.replicate_zero, List.nil_append]
    rw [foldl_cleanStep_names true names hnames]
    simp
  | false =>
    rw [List.foldl_append]
    have := foldl_cleanStep_dotdots k 0
    simp only [List.replicate_zero, Nat.zero_add] at this
    rw [this, foldl_cleanStep_names false names hnames]
    simp

theorem normal_noSep (rooted : Bool) (es : List GoString) (h : NormalElems rooted es) :
    ∀ e ∈ es, Separator ∉ e ∧ e ≠ [] := by
  obtain ⟨k, names, rfl, _, hnames⟩ := h
  intro e he
  rcases List.mem_append.mp he with he | he
  · rw [List.eq_of_mem_replicate he]
    decide
  · have := (validName_iff e).mp (hnames e he)
    exact ⟨this.2.1, this.1⟩

theorem joinSep_head (e : GoString) (es : List GoString) (c : Char) (cs : GoString)
    (he : e = c :: cs) : ∃ rest, joinSep (e :: es) = c :: rest := by
  subst he
  cases es with
  | nil => exact ⟨cs, by rw [joinSep_singleton]⟩
  | cons e2 es => exact ⟨cs ++ Separator :: joinSep (e2 :: es), by rw [joinSep_cons_cons]; rfl⟩

/-- Elements of a cleaned path, joined: not empty and not starting with a separator. -/
theorem joinSep_normal_head (rooted : Bool) (es : List GoString) (h : NormalElems rooted es)
    (hne : es ≠ []) : ∃ c rest, joinSep es = c :: rest ∧ c ≠ Separator := by
  cases es with
  | nil => exact absurd rfl hne
  | cons e es =>
    obtain ⟨hsep, hnil⟩ := normal_noSep rooted (e :: es) h e (List.mem_cons_self _ _)
    cases e with
    | nil => exact absurd rfl hnil
    | cons c cs =>
      obtain ⟨rest, hrest⟩ := joinSep_head (c :: cs) es c cs rfl
      exact ⟨c, rest, hrest, fun hc => hsep (by simp [hc])⟩

/-- Reading back a rendered cleaned path gives its elements and its rootedness. -/
theorem cleanElems_renderPath (rooted : Bool) (es : List GoString) (h : NormalElems rooted es)
    (hne : rooted = true ∨ es ≠ []) :
    IsAbs (renderPath rooted es) = rooted ∧ cleanElems (renderPath rooted es) = es := by
  cases rooted with
  | true =>
    have habs : IsAbs (renderPath true es) = true := by simp [renderPath, IsAbs]
    refine ⟨habs, ?_⟩
    unfold cleanElems
    rw [habs]
    simp only [renderPath, if_true, splitSep_cons_sep, List.foldl_cons, cleanStep_empty]
    by_cases hes : es = []
    · subst hes
      simp [joinSep_nil, splitSep, cleanStep_empty]
    · rw [splitSep_joinSep es hes (fun e he => (normal_noSep true es h e he).1),
        foldl_cleanStep_of_normal true es h]
      simp
  | false =>
    have hes : es ≠ [] := by
      rcases hne with h | h
      · exact absurd h (by simp)
      · exact h
    obtain ⟨c, rest, hj, hc⟩ := joinSep_normal_head false es h hes
    have habs : IsAbs (renderPath false es) = false := by
      simp [renderPath, IsAbs, hj, hc]
    refine ⟨habs, ?_⟩
    unfold cleanElems
    rw [habs]
    simp only [renderPath, Bool.false_eq_true, if_false]
    rw [splitSep_joinSep es hes (fun e he => (normal_noSep false es h e he).1),
      foldl_cleanStep_of_normal false es h]
    simp

/-- What `filepath.Clean` returns, in terms of the elements it keeps. -/
theorem Clean_eq (p : GoString) :
    Clean p = if IsAbs p = false ∧ cleanElems p = [] then ['.']
      else renderPath (IsAbs p) (cleanElems p) := by
  unfold Clean
  by_cases hp : p = []
  · subst hp
    simp [IsAbs, cleanElems, splitSep, cleanStep]
  · rw [if_neg hp]
    by_cases habs : IsAbs p = true
    · simp [habs, renderPath]
    · have habs2 : IsAbs p = false := by simpa using habs
      simp only [habs2, Bool.false_eq_true, if_false, true_and, renderPath]

theorem cleanElems_dot : cleanElems ['.'] = [] ∧ IsAbs ['.'] = false := by decide

/-- Cleaning keeps the elements and the rootedness of a path. -/
theorem cleanElems_Clean (p : GoString) :
    IsAbs (Clean p) = IsAbs p ∧ cleanElems (Clean p) = cleanElems p := by
  rw [Clean_eq]
  by_cases h : IsAbs p = false ∧ cleanElems p = []
  · rw [if_pos h, h.1, h.2]
    exact ⟨cleanElems_dot.2, cleanElems_dot.1⟩
  · rw [if_neg h]
    apply cleanElems_renderPath _ _ (cleanElems_normal p)
    by_cases habs : IsAbs p = true
    · exact Or.inl habs
    · right
      intro hes
      exact h ⟨by simpa using habs, hes⟩

/-- The function `filepath.Clean` is idempotent. -/
theorem Clean_Clean (p : GoString) : Clean (Clean p) = Clean p := by
  obtain ⟨h1, h2⟩ := cleanElems_Clean p
  conv_lhs => rw [Clean_eq]
  rw [h1, h2, ← Clean_eq]

/-- Two paths with the same rootedness and the same elements are cleaned to the
same string. -/
theorem Clean_congr (p q : GoString) (h1 : IsAbs p = IsAbs q)
    (h2 : cleanElems p = cleanElems q) : Clean p = Clean q := by
  rw [Clean_eq, Clean_eq, h1, h2]

/-- Two paths cleaned to the same string have the same rootedness and elements. -/
theorem Clean_inj (p q : GoString) (h : Clean p = Clean q) :
    IsAbs p = IsAbs q ∧ cleanElems p = cleanElems q := by
  obtain ⟨h1, h2⟩ := cleanElems_Clean p
  obtain ⟨h3, h4⟩ := cleanElems_Clean q
  rw [h] at h1 h2
  exact ⟨h1.symm.trans h3, h2.symm.trans h4⟩



/-! ### The loop of `filepath.Rel` on cleaned paths -/

theorem takeWhile_noSep (b : GoString) (h : Separator ∉ b) :
    b.takeWhile (fun c => c ≠ Separator) = b := by
  induction b with
  | nil => rfl
  | cons c cs ih =>
    have hc : c ≠ Separator := fun hc => h (by simp [hc])
    have hcs : Separator ∉ cs := fun hm => h (List.mem_cons_of_mem _ hm)
    simp only [List.takeWhile_cons, ne_eq, hc, not_false_eq_true, decide_True, if_true]
    rw [show (fun c => decide (¬ c = Separator)) = (fun c => decide (c ≠ Separator)) from rfl,
      ih hcs]

theorem takeWhile_append_sep (b r : GoString) (h : Separator ∉ b) :
    (b ++ Separator :: r).takeWhile (fun c => c ≠ Separator) = b := by
  induction b with
  | nil => simp
  | cons c cs ih =>
    have hc : c ≠ Separator := fun hc => h (by simp [hc])
    have hcs : Separator ∉ cs := fun hm => h (List.mem_cons_of_mem _ hm)
    simp only [List.cons_append, List.takeWhile_cons, ne_eq, hc, not_false_eq_true,
      decide_True, if_true]
    rw [show (fun c => decide (¬ c = Separator)) = (fun c => decide (c ≠ Separator)) from rfl,
      ih hcs]

/-- The first element read off a joined list of elements is its first element. -/
theorem takeWhile_joinSep (b : GoString) (bs : List GoString) (h : Separator ∉ b) :
    (joinSep (b :: bs)).takeWhile (fun c => c ≠ Separator) = b := by
  cases bs with
  | nil => rw [joinSep_singleton]; exact takeWhile_noSep b h
  | cons b2 bs => rw [joinSep_cons_cons]; exact takeWhile_append_sep b _ h

/-- Stepping over the first element and its separator leaves the other elements. -/
theorem drop_joinSep (b : GoString) (bs : List GoString) :
    ((joinSep (b :: bs)).drop b.length).drop 1 = joinSep bs := by
  cases bs with
  | nil => simp [joinSep_singleton, joinSep_nil]
  | cons b2 bs => rw [joinSep_cons_cons, List.drop_left]; rfl

theorem joinSep_cons_ne_nil (b : GoString) (bs : List GoString) (h : b ≠ []) :
    joinSep (b :: bs) ≠ [] := by
  cases bs with
  | nil => rw [joinSep_singleton]; exact h
  | cons b2 bs => rw [joinSep_cons_cons]; simp [h]

/-- What the loop of `filepath.Rel` leaves when it runs on two joined lists of
elements: the common leading elements are stepped over; the loop stops at the
first pair of different elements, or when one list is used up. -/
theorem relLoop_joinSep (bs : List GoString) :
    ∀ (ts : List GoString) (fuel : Nat), bs.length < fuel →
      (∀ e ∈ bs, Separator ∉ e ∧ e ≠ []) → (∀ e ∈ ts, Separator ∉ e ∧ e ≠ []) →
      relLoop fuel (joinSep bs) (joinSep ts) =
        match stripCommon bs ts with
        | (b :: bs2, t :: ts2) => (b, joinSep (b :: bs2), joinSep (t :: ts2))
        | (bs2, ts2) => ([], joinSep bs2, joinSep ts2) := by
  induction bs with
  | nil =>
    intro ts fuel hfuel _ _
    obtain ⟨f, rfl⟩ : ∃ f, fuel = f + 1 := ⟨fuel - 1, by simp at hfuel; omega⟩
    simp [relLoop, joinSep_nil, stripCommon]
  | cons b bs ih =>
    intro ts fuel hfuel hb ht
    obtain ⟨f, rfl⟩ : ∃ f, fuel = f + 1 := ⟨fuel - 1, by simp at hfuel; omega⟩
    cases ts with
    | nil => simp [relLoop, joinSep_nil, stripCommon]
    | cons t ts =>
      obtain ⟨hbsep, hbne⟩ := hb b (List.mem_cons_self _ _)
      obtain ⟨htsep, htne⟩ := ht t (List.mem_cons_self _ _)
      have h1 := joinSep_cons_ne_nil b bs hbne
      have h2 := joinSep_cons_ne_nil t ts htne
      rw [relLoop]
      simp only [h1, h2, or_self, if_false]
      rw [takeWhile_joinSep b bs hbsep, takeWhile_joinSep t ts htsep]
      by_cases hbt : b = t
      · subst hbt
        simp only [ne_eq, not_true_eq_false, if_false]
        rw [drop_joinSep, drop_joinSep,
          ih ts f (by simp at hfuel; omega) (fun e he => hb e (List.mem_cons_of_mem _ he))
            (fun e he => ht e (List.mem_cons_of_mem _ he))]
        simp [stripCommon]
      · have htb : t ≠ b := fun h => hbt h.symm
        simp only [ne_eq, htb, not_false_eq_true, if_true, stripCommon, hbt, if_false]

/-- What `stripCommon` returns: the two lists are a common start followed by the
two results, and the results do not both start with the same element. -/
theorem stripCommon_spec (bs : List GoString) :
    ∀ (ts bs2 ts2 : List GoString), stripCommon bs ts = (bs2, ts2) →
      ∃ common, bs = common ++ bs2 ∧ ts = common ++ ts2 ∧
        (bs2 = [] ∨ ts2 = [] ∨ bs2.head? ≠ ts2.head?) := by
  induction bs with
  | nil =>
    intro ts bs2 ts2 h
    simp only [stripCommon, Prod.mk.injEq] at h
    obtain ⟨rfl, rfl⟩ := h
    exact ⟨[], rfl, rfl, Or.inl rfl⟩
  | cons b bs ih =>
    intro ts bs2 ts2 h
    cases ts with
    | nil =>
      simp only [stripCommon, Prod.mk.injEq] at h
      obtain ⟨rfl, rfl⟩ := h
      exact ⟨[], rfl, rfl, Or.inr (Or.inl rfl)⟩
    | cons t ts =>
      by_cases hbt : b = t
      · subst hbt
        simp only [stripCommon, if_true] at h
        obtain ⟨common, h1, h2, h3⟩ := ih ts bs2 ts2 h
        exact ⟨b :: common, by rw [h1]; rfl, by rw [h2]; rfl, h3⟩
      · simp only [stripCommon, hbt, if_false, Prod.mk.injEq] at h
        obtain ⟨rfl, rfl⟩ := h
        exact ⟨[], rfl, rfl, Or.inr (Or.inr (by simpa using hbt))⟩

/-- The first list starts the second exactly when nothing of it is left after
the common start is removed. -/
theorem stripCommon_prefix (bs ts bs2 ts2 : List GoString)
    (h : stripCommon bs ts = (bs2, ts2)) :
    (bs <+: ts ↔ bs2 = []) ∧ (bs2 = [] → ts = bs ++ ts2) := by
  obtain ⟨common, h1, h2, h3⟩ := stripCommon_spec bs ts bs2 ts2 h
  constructor
  · constructor
    · rintro ⟨rest, hrest⟩
      rw [h1, h2, List.append_assoc] at hrest
      have := List.append_cancel_left hrest
      rcases h3 with h3 | h3 | h3
      · exact h3
      · subst h3
        exact (List.append_eq_nil.mp this).1
      · cases bs2 with
        | nil => rfl
        | cons x xs =>
          exfalso
          apply h3
          rw [← this]
          rfl
    · intro hnil
      subst hnil
      rw [h1, h2]
      simp
  · intro hnil
    subst hnil
    rw [h1, h2]
    simp



/-! ### `insideDir` in terms of path elements -/

theorem hasPrefix_dotdot_append (x : GoString) :
    strings.HasPrefix (dotdot ++ x) dotdot = true := by
  simp [strings.HasPrefix, dotdot, List.isPrefixOf]

/-- A joined list of elements starts with two dots exactly when its first
element does. -/
theorem hasPrefix_joinSep (t : GoString) (ts : List GoString) (hne : t ≠ []) :
    strings.HasPrefix (joinSep (t :: ts)) dotdot = strings.HasPrefix t dotdot := by
  cases ts with
  | nil => rw [joinSep_singleton]
  | cons t2 ts =>
    rw [joinSep_cons_cons]
    cases t with
    | nil => exact absurd rfl hne
    | cons c1 cs =>
      cases cs with
      | nil =>
        have : ('.' == Separator) = false := by decide
        simp [strings.HasPrefix, dotdot, List.isPrefixOf, this]
      | cons c2 cs => simp [strings.HasPrefix, dotdot, List.isPrefixOf]

theorem length_le_joinSep (bs : List GoString) (h : ∀ e ∈ bs, Separator ∉ e ∧ e ≠ []) :
    bs.length ≤ (joinSep bs).length := by
  induction bs with
  | nil => simp
  | cons b bs ih =>
    have hb : 1 ≤ b.length := by
      have := (h b (List.mem_cons_self _ _)).2
      cases b with
      | nil => exact absurd rfl this
      | cons c cs => simp
    have ih2 := ih (fun e he => h e (List.mem_cons_of_mem _ he))
    cases bs with
    | nil => rw [joinSep_singleton]; simpa using hb
    | cons b2 bs =>
      rw [joinSep_cons_cons]
      simp only [List.length_cons, List.length_append] at ih2 ⊢
      omega

/-- The elements the target of `filepath.Rel` is read from: those of the cleaned
path, and the single element `.` for a path cleaned to `.`. -/
theorem Clean_eq_render (p : GoString) :
    ∃ es, Clean p = renderPath (IsAbs p) es ∧ (∀ e ∈ es, Separator ∉ e ∧ e ≠ []) ∧
      ((IsAbs p = false ∧ cleanElems p = [] ∧ es = [['.']]) ∨
        (¬ (IsAbs p = false ∧ cleanElems p = []) ∧ es = cleanElems p)) := by
  by_cases h : IsAbs p = false ∧ cleanElems p = []
  · refine ⟨[['.']], ?_, ?_, Or.inl ⟨h.1, h.2, rfl⟩⟩
    · rw [Clean_eq, if_pos h, h.1]
      rfl
    · intro e he
      rw [List.mem_singleton.mp he]
      decide
  · refine ⟨cleanElems p, ?_, normal_noSep _ _ (cleanElems_normal p), Or.inr ⟨h, rfl⟩⟩
    rw [Clean_eq, if_neg h]

theorem Clean_dot : Clean ['.'] = ['.'] := by decide

/-- A path is cleaned to `.` exactly when it is not rooted and keeps no element. -/
theorem Clean_eq_dot_iff (p : GoString) :
    Clean p = ['.'] ↔ (IsAbs p = false ∧ cleanElems p = []) := by
  constructor
  · intro h
    have := Clean_inj p ['.'] (by rw [h, Clean_dot])
    rw [cleanElems_dot.1, cleanElems_dot.2] at this
    exact this
  · intro h
    rw [Clean_eq, if_pos h]

/-- The base of `filepath.Rel` after `.` has been replaced by the empty string. -/
theorem relBase_eq (p : GoString) :
    (if Clean p = ['.'] then [] else Clean p) = renderPath (IsAbs p) (cleanElems p) := by
  by_cases h : Clean p = ['.']
  · rw [if_pos h]
    obtain ⟨h1, h2⟩ := (Clean_eq_dot_iff p).mp h
    rw [h1, h2]
    rfl
  · rw [if_neg h, Clean_eq, if_neg (fun hc => h ((Clean_eq_dot_iff p).mpr hc))]

theorem IsAbs_renderPath (rooted : Bool) (es : List GoString)
    (h : ∀ e ∈ es, Separator ∉ e ∧ e ≠ []) : IsAbs (renderPath rooted es) = rooted := by
  cases rooted with
  | true => simp [renderPath, IsAbs]
  | false =>
    cases es with
    | nil => simp [renderPath, IsAbs, joinSep_nil]
    | cons e es =>
      obtain ⟨hsep, hne⟩ := h e (List.mem_cons_self _ _)
      cases e with
      | nil => exact absurd rfl hne
      | cons c cs =>
        obtain ⟨rest, hrest⟩ := joinSep_head (c :: cs) es c cs rfl
        have hc : c ≠ Separator := fun hc => hsep (by simp [hc])
        simp [renderPath, IsAbs, hrest, hc]

/-- The loop of `filepath.Rel` on the rendered base and target. -/
theorem relLoop_render (rooted : Bool) (bs ts : List GoString)
    (hb : ∀ e ∈ bs, Separator ∉ e ∧ e ≠ []) (ht : ∀ e ∈ ts, Separator ∉ e ∧ e ≠ []) :
    relLoop ((renderPath rooted bs).length + 1) (renderPath rooted bs) (renderPath rooted ts) =
      match stripCommon bs ts with
      | (b :: bs2, t :: ts2) =>
        (b, joinSep (b :: bs2), joinSep (t :: ts2))
      | (bs2, ts2) => ([], joinSep bs2, joinSep ts2) := by
  have hlen := length_le_joinSep bs hb
  cases rooted with
  | false =>
    simp only [renderPath, Bool.false_eq_true, if_false]
    exact relLoop_joinSep bs ts _ (by omega) hb ht
  | true =>
    simp only [renderPath, if_true, List.length_cons]
    rw [relLoop]
    have hne : ¬ (Separator :: joinSep bs = [] ∨ Separator :: joinSep ts = []) := by simp
    rw [if_neg hne]
    simp only [List.takeWhile_cons, ne_eq, not_true_eq_false, decide_False, Bool.false_eq_true,
      if_false, List.length_nil, List.drop_zero, List.drop_one, List.tail_cons]
    exact relLoop_joinSep bs ts _ (by omega) hb ht



/-- The function `insideDir` in terms of path elements: it returns true exactly
when both paths are rooted or both are not, the elements of the cleaned `dir`
start the elements of the cleaned `path`, and the element that follows, if any,
does not begin with two dots. -/
theorem insideDir_iff (dir path : GoString) :
    insideDir dir path = true ↔
      (IsAbs dir = IsAbs path ∧ ∃ rest, cleanElems path = cleanElems dir ++ rest ∧
        ∀ t, rest.head? = some t → strings.HasPrefix t dotdot = false) := by
  unfold insideDir filepath.Rel
  simp only
  by_cases heq : Clean path = Clean dir
  · rw [if_pos heq]
    obtain ⟨h1, h2⟩ := Clean_inj path dir heq
    constructor
    · intro _
      exact ⟨h1.symm, [], by simp [h2], by simp⟩
    · intro _
      decide
  · rw [if_neg heq, relBase_eq dir]
    obtain ⟨ts, hts, htsep, htcase⟩ := Clean_eq_render path
    have hbsep := normal_noSep _ _ (cleanElems_normal dir)
    rw [IsAbs_renderPath (IsAbs dir) (cleanElems dir) hbsep, (cleanElems_Clean path).1]
    by_cases hr : IsAbs dir = IsAbs path
    · rw [if_neg (by simpa using hr), hts, ← hr,
        relLoop_render (IsAbs dir) (cleanElems dir) ts hbsep htsep]
      rcases hstrip : stripCommon (cleanElems dir) ts with ⟨bs2, ts2⟩
      obtain ⟨hpre, hrest⟩ := stripCommon_prefix _ _ _ _ hstrip
      -- the relation between the elements read and the elements of the cleaned path
      have hlink : (∃ rest, cleanElems path = cleanElems dir ++ rest ∧
            ∀ t, rest.head? = some t → strings.HasPrefix t dotdot = false) ↔
          (bs2 = [] ∧ ∀ t, ts2.head? = some t → strings.HasPrefix t dotdot = false) := by
        rcases htcase with ⟨hp1, hp2, hp3⟩ | ⟨_, hp3⟩
        · -- the path is cleaned to `.`: the base has elements, since the two differ
          have hbne : cleanElems dir ≠ [] := by
            intro hb
            apply heq
            exact Clean_congr path dir (by rw [hp1, hr, hp1]) (by rw [hp2, hb])
          constructor
          · rintro ⟨rest, h1, _⟩
            rw [hp2] at h1
            exact absurd (List.append_eq_nil.mp h1.symm).1 hbne
          · rintro ⟨hnil, _⟩
            subst hp3
            have := hpre.mpr hnil
            obtain ⟨rest, hrest2⟩ := this
            cases hd : cleanElems dir with
            | nil => exact absurd hd hbne
            | cons b bs =>
              rw [hd] at hrest2
              simp only [List.cons_append, List.cons.injEq] at hrest2
              have hb := hbsep b (by rw [hd]; exact List.mem_cons_self _ _)
              obtain ⟨k, names, hk, _, hnames⟩ := cleanElems_normal dir
              have hmem : b ∈ List.replicate k dotdot ++ names := by
                rw [← hk, hd]; exact List.mem_cons_self _ _
              rcases List.mem_append.mp hmem with hm | hm
              · rw [List.eq_of_mem_replicate hm] at hrest2
                exact absurd hrest2.1 (by decide)
              · have := (validName_iff b).mp (hnames b hm)
                exact absurd hrest2.1 this.2.2.1
        · subst hp3
          constructor
          · rintro ⟨rest, h1, h2⟩
            have hnil := hpre.mp ⟨rest, h1.symm⟩
            refine ⟨hnil, ?_⟩
            have := hrest hnil
            rw [h1] at this
            rw [← List.append_cancel_left this]
            exact h2
          · rintro ⟨hnil, h2⟩
            exact ⟨ts2, hrest hnil, h2⟩
      rw [hlink]
      have hdd : (['.', '.'] : GoString) = dotdot := rfl
      have hd : ¬ (([] : GoString) = dotdot) := by simp [dotdot]
      rw [hdd]
      cases bs2 with
      | nil =>
        simp only [true_and]
        cases ts2 with
        | nil =>
          simp only [if_neg hd, joinSep_nil, ne_eq, not_true_eq_false, if_false]
          simp [strings.HasPrefix, dotdot, List.isPrefixOf]
        | cons t ts2 =>
          obtain ⟨common, _, hc2, _⟩ := stripCommon_spec _ _ _ _ hstrip
          have ht : t ≠ [] := (htsep t (by rw [hc2]; simp)).2
          simp only [if_neg hd, joinSep_nil, ne_eq, not_true_eq_false, if_false,
            List.head?_cons, Option.some.injEq, forall_eq']
          rw [hasPrefix_joinSep t ts2 ht]
          simp
      | cons b bs2 =>
        obtain ⟨common, hc1, _, _⟩ := stripCommon_spec _ _ _ _ hstrip
        have hb : b ≠ [] := (hbsep b (by rw [hc1]; simp)).2
        have hj := joinSep_cons_ne_nil b bs2 hb
        simp only [false_and, iff_false, reduceCtorEq]
        cases ts2 with
        | nil =>
          simp only [if_neg hd, ne_eq, hj, not_false_eq_true, if_true, joinSep_nil,
            not_true_eq_false, if_false]
          simp [hasPrefix_dotdot_append]
        | cons t ts2 =>
          simp only
          by_cases hbd : b = dotdot
          · simp [hbd]
          · have ht2 : joinSep (t :: ts2) ≠ [] := by
              obtain ⟨common, _, hc2, _⟩ := stripCommon_spec _ _ _ _ hstrip
              exact joinSep_cons_ne_nil t ts2 (htsep t (by rw [hc2]; simp)).2
            simp only [hbd, if_false, ne_eq, hj, not_false_eq_true, if_true, ht2]
            rw [List.append_assoc, hasPrefix_dotdot_append]
            simp
    · rw [if_pos (by simpa using hr)]
      simp [hr]



/-! ### Invariants of a walk -/

mutual
/-- An invariant `I` of the walk state is kept by `walkDir` when every call of the
callback keeps it and reading a directory the callback accepted keeps it; `Q`
is what is known of a path and the entry found there, handed down from a
directory to the entries the walk goes on to visit. -/
theorem walkDir_preserves {σ : Type} (fn : WalkDirFunc σ) (Q : GoString → Node → Prop)
    (I : WalkState σ → Prop)
    (hchild : ∀ path readErr entries name child u, Q path (Node.dir readErr entries) →
      (fn path true none u).2 = none → (name, child) ∈ entries →
      Q (Join [path, name]) child)
    (hfile : ∀ path u read, Q path Node.file → I ⟨u, read⟩ →
      I ⟨(fn path false none u).1, read⟩)
    (hdir : ∀ path readErr entries u read, Q path (Node.dir readErr entries) → I ⟨u, read⟩ →
      I ⟨(fn path true none u).1, read⟩ ∧
        ((fn path true none u).2 = none → I ⟨(fn path true none u).1, read ++ [path]⟩))
    (herr : ∀ path e u read, I ⟨u, read⟩ → I ⟨(fn path true (some e) u).1, read⟩) :
    ∀ (node : Node) (path : GoString) (s : WalkState σ), Q path node → I s →
      I (walkDir fn path node s).1
  | Node.file, path, s, hq, hi => by
    rw [walkDir]
    exact hfile path s.user s.read hq hi
  | Node.dir readErr entries, path, s, hq, hi => by
    have hd := hdir path readErr entries s.user s.read hq hi
    have hc := fun name child => hchild path readErr entries name child s.user hq
    rw [walkDir]
    rcases hfn : fn path true none s.user with ⟨u, r⟩
    rw [hfn] at hd hc
    simp only at hd hc
    cases r with
    | some e =>
      cases e with
      | skipDir => exact hd.1
      | err e => exact hd.1
    | none =>
      have hi2 := hd.2 rfl
      have hq2 : ∀ name child, (name, child) ∈ entries → Q (Join [path, name]) child :=
        fun name child hmem => hc name child rfl hmem
      cases readErr with
      | none =>
        exact walkEntries_preserves fn Q I hchild hfile hdir herr entries path _ hq2 hi2
      | some e =>
        simp only
        have he := herr path e u (s.read ++ [path]) hi2
        rcases hfn2 : fn path true (some e) u with ⟨u2, r2⟩
        rw [hfn2] at he
        simp only at he
        cases r2 with
        | some e2 =>
          cases e2 with
          | skipDir => exact he
          | err e2 => exact he
        | none =>
          exact walkEntries_preserves fn Q I hchild hfile hdir herr entries path _ hq2 he
/-- The invariant is kept by the loop over the entries of a directory. -/
theorem walkEntries_preserves {σ : Type} (fn : WalkDirFunc σ) (Q : GoString → Node → Prop)
    (I : WalkState σ → Prop)
    (hchild : ∀ path readErr entries name child u, Q path (Node.dir readErr entries) →
      (fn path true none u).2 = none → (name, child) ∈ entries →
      Q (Join [path, name]) child)
    (hfile : ∀ path u read, Q path Node.file → I ⟨u, read⟩ →
      I ⟨(fn path false none u).1, read⟩)
    (hdir : ∀ path readErr entries u read, Q path (Node.dir readErr entries) → I ⟨u, read⟩ →
      I ⟨(fn path true none u).1, read⟩ ∧
        ((fn path true none u).2 = none → I ⟨(fn path true none u).1, read ++ [path]⟩))
    (herr : ∀ path e u read, I ⟨u, read⟩ → I ⟨(fn path true (some e) u).1, read⟩) :
    ∀ (entries : List (GoString × Node)) (path : GoString) (s : WalkState σ),
      (∀ name child, (name, child) ∈ entries → Q (Join [path, name]) child) → I s →
      I (walkEntries fn path entries s).1
  | [], path, s, _, hi => by
    rw [walkEntries]
    exact hi
  | (name, d1) :: rest, path, s, hq, hi => by
    rw [walkEntries]
    have h1 := walkDir_preserves fn Q I hchild hfile hdir herr d1 (Join [path, name]) s
      (hq name d1 (List.mem_cons_self _ _)) hi
    rcases hw : walkDir fn (Join [path, name]) d1 s with ⟨s1, r⟩
    rw [hw] at h1
    simp only at h1
    cases r with
    | some e =>
      cases e with
      | skipDir => exact h1
      | err e => exact h1
    | none =>
      exact walkEntries_preserves fn Q I hchild hfile hdir herr rest path s1
        (fun n c hmem => hq n c (List.mem_cons_of_mem _ hmem)) h1
end



/-! ### The path of a directory entry -/

theorem Clean_ne_nil (p : GoString) : Clean p ≠ [] := by
  rw [Clean_eq]
  split
  · simp
  · rename_i h
    cases habs : IsAbs p with
    | true => simp [renderPath]
    | false =>
      have hes : cleanElems p ≠ [] := fun hes => h ⟨habs, hes⟩
      obtain ⟨c, rest, hj, _⟩ := joinSep_normal_head _ _ (cleanElems_normal p) hes
      simp [renderPath, hj]

/-- The path `filepath.Join(path, name)` of an entry of a directory. -/
theorem Join_pair (path name : GoString) (h : path ≠ []) :
    Join [path, name] = Clean (path ++ Separator :: name) := by
  rw [Join, if_pos h, joinSep_cons_cons, joinSep_singleton]

theorem Join_pair_nil (name : GoString) (h : name ≠ []) : Join [[], name] = Clean name := by
  rw [Join, if_neg (by simp), Join, if_pos h, joinSep_singleton]

theorem IsAbs_append (path rest : GoString) (h : path ≠ []) :
    IsAbs (path ++ rest) = IsAbs path := by
  cases path with
  | nil => exact absurd rfl h
  | cons c cs => rfl

theorem IsAbs_Join_child (path name : GoString) (h : path ≠ []) :
    IsAbs (Join [path, name]) = IsAbs path := by
  rw [Join_pair path name h, (cleanElems_Clean _).1, IsAbs_append path _ h]

theorem Join_child_ne_nil (path name : GoString) (h : path ≠ []) : Join [path, name] ≠ [] := by
  rw [Join_pair path name h]
  exact Clean_ne_nil _

/-- The elements of the path of an entry: those of the directory, then the name. -/
theorem cleanElems_Join_child (path name : GoString) (h : path ≠ [])
    (hname : validName name = true) :
    cleanElems (Join [path, name]) = cleanElems path ++ [name] := by
  rw [Join_pair path name h, (cleanElems_Clean _).2]
  unfold cleanElems
  rw [IsAbs_append path _ h, splitSep_append_sep,
    splitSep_of_noSep name ((validName_iff name).mp hname).2.1, List.foldl_append]
  simp only [List.foldl_cons, List.foldl_nil]
  rw [cleanStep_valid _ _ name hname]
  simp

theorem cleanElems_valid (name : GoString) (hname : validName name = true) :
    cleanElems name = [name] ∧ IsAbs name = false := by
  obtain ⟨h1, h2, _, _⟩ := (validName_iff name).mp hname
  have habs : IsAbs name = false := by
    cases name with
    | nil => exact absurd rfl h1
    | cons c cs =>
      have hc : c ≠ Separator := fun hc => h2 (by simp [hc])
      simp [IsAbs, hc]
  refine ⟨?_, habs⟩
  unfold cleanElems
  rw [splitSep_of_noSep name h2]
  simp only [List.foldl_cons, List.foldl_nil]
  rw [cleanStep_valid _ _ name hname]
  rfl

/-- The path of an entry with a proper name is not the directory itself, also
after cleaning. -/
theorem Clean_Join_child_ne (path name : GoString) (hname : validName name = true) :
    Clean (Join [path, name]) ≠ Clean path := by
  intro heq
  obtain ⟨_, h2⟩ := Clean_inj _ _ heq
  by_cases h : path = []
  · subst h
    rw [Join_pair_nil name ((validName_iff name).mp hname).1, (cleanElems_Clean _).2,
      (cleanElems_valid name hname).1] at h2
    have : cleanElems ([] : GoString) = [] := by decide
    rw [this] at h2
    exact absurd h2 (by simp)
  · rw [cleanElems_Join_child path name h hname] at h2
    have := congrArg List.length h2
    simp at this



/-! ### The callback of `organizeOnce` -/

theorem organizeVisit_err {μ : Type} (move : GoString → GoString → Bool → μ → μ × Option GoError)
    (srcDir dstDir : GoString) (noRecursive dryRun : Bool) (path : GoString) (isDir : Bool)
    (e : GoError) (st : OrgState μ) :
    organizeVisit move srcDir dstDir noRecursive dryRun path isDir (some e) st
      = (st, some (WalkErr.err e)) := rfl

theorem organizeVisit_dir {μ : Type} (move : GoString → GoString → Bool → μ → μ × Option GoError)
    (srcDir dstDir : GoString) (noRecursive dryRun : Bool) (path : GoString) (st : OrgState μ) :
    organizeVisit move srcDir dstDir noRecursive dryRun path true none st
      = (st, if Clean path = Clean dstDir then some WalkErr.skipDir
          else if noRecursive = true ∧ Clean path ≠ Clean srcDir then some WalkErr.skipDir
          else none) := by
  unfold organizeVisit
  simp only [true_and, if_true]
  split
  · rfl
  · split <;> rfl

theorem organizeVisit_file {μ : Type} (move : GoString → GoString → Bool → μ → μ × Option GoError)
    (srcDir dstDir : GoString) (noRecursive dryRun : Bool) (path : GoString) (st : OrgState μ) :
    (organizeVisit move srcDir dstDir noRecursive dryRun path false none st).2 = none ∧
    (organizeVisit move srcDir dstDir noRecursive dryRun path false none st).1.calls
      = if insideDir dstDir path = true then st.calls else st.calls ++ [path] := by
  unfold organizeVisit
  simp only [Bool.false_eq_true, false_and, if_false]
  split
  · exact ⟨rfl, rfl⟩
  · split <;> exact ⟨rfl, rfl⟩

/-- An invariant of the walk state is kept by `organizeOnce` when the callback
keeps it. -/
theorem organizeOnce_preserves {μ : Type}
    (move : GoString → GoString → Bool → μ → μ × Option GoError)
    (srcDir dstDir : GoString) (noRecursive dryRun : Bool) (root : Except GoError Node) (m : μ)
    (Q : GoString → Node → Prop) (I : WalkState (OrgState μ) → Prop)
    (hchild : ∀ path readErr entries name child,
      Q path (Node.dir readErr entries) → Clean path ≠ Clean dstDir →
      ¬ (noRecursive = true ∧ Clean path ≠ Clean srcDir) → (name, child) ∈ entries →
      Q (Join [path, name]) child)
    (hfile : ∀ path st read, Q path Node.file → I ⟨st, read⟩ →
      I ⟨(organizeVisit move srcDir dstDir noRecursive dryRun path false none st).1, read⟩)
    (hdir : ∀ path readErr entries st read, Q path (Node.dir readErr entries) → I ⟨st, read⟩ →
      Clean path ≠ Clean dstDir → ¬ (noRecursive = true ∧ Clean path ≠ Clean srcDir) →
      I ⟨st, read ++ [path]⟩)
    (hroot : ∀ node, root = Except.ok node → Q srcDir node)
    (hinit : I ⟨⟨m, [], []⟩, []⟩) :
    I (organizeOnce move srcDir dstDir noRecursive dryRun root m).1 := by
  unfold organizeOnce WalkDir
  cases root with
  | error e =>
    simp only [organizeVisit_err]
    exact hinit
  | ok node =>
    have h := walkDir_preserves (organizeVisit move srcDir dstDir noRecursive dryRun) Q I
      (by
        intro path readErr entries name child u hq hres hmem
        rw [organizeVisit_dir] at hres
        simp only at hres
        by_cases h1 : Clean path = Clean dstDir
        · rw [if_pos h1] at hres; exact absurd hres (by simp)
        · rw [if_neg h1] at hres
          by_cases h2 : noRecursive = true ∧ Clean path ≠ Clean srcDir
          · rw [if_pos h2] at hres; exact absurd hres (by simp)
          · exact hchild path readErr entries name child hq h1 h2 hmem)
      hfile
      (by
        intro path readErr entries u read hq hi
        rw [organizeVisit_dir]
        refine ⟨hi, ?_⟩
        intro hres
        simp only at hres
        by_cases h1 : Clean path = Clean dstDir
        · rw [if_pos h1] at hres; exact absurd hres (by simp)
        · rw [if_neg h1] at hres
          by_cases h2 : noRecursive = true ∧ Clean path ≠ Clean srcDir
          · rw [if_pos h2] at hres; exact absurd hres (by simp)
          · exact hdir path readErr entries u read hq hi h1 h2)
      (by
        intro path e u read hi
        rw [organizeVisit_err]
        exact hi)
      node srcDir ⟨⟨m, [], []⟩, []⟩ (hroot node rfl) hinit
    simp only
    split <;> rename_i heq <;> rw [heq] at h <;> exact h

theorem wellFormedEntries_mem (entries : List (GoString × Node))
    (h : wellFormedEntries entries = true) (name : GoString) (child : Node)
    (hmem : (name, child) ∈ entries) : validName name = true ∧ wellFormed child = true := by
  induction entries with
  | nil => simp at hmem
  | cons e rest ih =>
    obtain ⟨n, d⟩ := e
    rw [wellFormedEntries] at h
    simp only [Bool.and_eq_true] at h
    rcases List.mem_cons.mp hmem with heq | hmem
    · simp only [Prod.mk.injEq] at heq
      obtain ⟨rfl, rfl⟩ := heq
      exact ⟨h.1.1, h.1.2⟩
    · exact ih h.2 hmem

/-- When both paths are of the same kind and the element of `path` right below
`dir` does not begin with two dots (unless it is `..`), `insideDir` decides whether
`path` is `dir` or lies below it. -/
theorem insideDir_eq_lexInside (dir path : GoString) (hkind : IsAbs dir = IsAbs path)
    (hfree : slipFree dir path = true) :
    insideDir dir path = lexInside dir path := by
  have hslip : ∀ t, firstBelow dir path = some t → strings.HasPrefix t dotdot = true →
      t = dotdot := by
    intro t ht
    unfold slipFree at hfree
    rw [ht] at hfree
    exact of_decide_eq_true hfree
  rw [Bool.eq_iff_iff, insideDir_iff]
  simp only [lexInside, decide_eq_true_eq]
  constructor
  · rintro ⟨_, rest, hrest, hhead⟩
    refine ⟨hkind, ⟨rest, hrest.symm⟩, ?_⟩
    rw [hrest, List.drop_left]
    intro hd
    have := hhead dotdot hd
    exact absurd this (by decide)
  · rintro ⟨_, ⟨rest, hrest⟩, hhead⟩
    refine ⟨hkind, rest, hrest.symm, ?_⟩
    intro t ht
    rw [← hrest, List.drop_left] at hhead
    have hfb : firstBelow dir path = some t := by
      unfold firstBelow
      rw [if_pos ⟨rest, hrest⟩, ← hrest, List.drop_left]
      exact ht
    by_contra hpre
    have htd := hslip t hfb (by simpa using hpre)
    rw [htd] at ht
    exact hhead ht



/-! ### Resolving a relative path against the working directory -/

/-- A `..` at the bottom of the stack of a path that is not rooted stays there. -/
theorem cleanStep_keeps_dotdot (stack : List GoString) (e : GoString) (he : Separator ∉ e)
    (hs : ∃ names k, stack = names ++ List.replicate (k + 1) dotdot ∧
      ∀ n ∈ names, validName n = true) :
    ∃ names k, cleanStep false stack e = names ++ List.replicate (k + 1) dotdot ∧
      ∀ n ∈ names, validName n = true := by
  obtain ⟨names, k, rfl, hnames⟩ := hs
  by_cases h1 : e = [] ∨ e = ['.']
  · exact ⟨names, k, by simp only [cleanStep, if_pos h1], hnames⟩
  · by_cases h2 : e = dotdot
    · subst h2
      have hd : ¬ (dotdot = [] ∨ dotdot = ['.']) := by decide
      cases names with
      | nil =>
        refine ⟨[], k + 1, ?_, by simp⟩
        simp [cleanStep, List.replicate_succ, dotdot]
      | cons n names =>
        have hn : n ≠ dotdot := by
          intro h
          have := hnames n (List.mem_cons_self _ _)
          rw [h, dotdot_not_valid] at this
          exact absurd this (by simp)
        refine ⟨names, k, ?_, fun x hx => hnames x (List.mem_cons_of_mem _ hx)⟩
        simp only [cleanStep, if_neg hd, List.cons_append, if_true, ne_eq, hn,
          not_false_eq_true]
    · have hv : validName e = true := by
        rw [validName_iff]
        exact ⟨fun h => h1 (Or.inl h), he, fun h => h1 (Or.inr h), h2⟩
      rw [cleanStep_valid false _ e hv]
      refine ⟨e :: names, k, by simp, ?_⟩
      intro x hx
      rcases List.mem_cons.mp hx with rfl | hx
      · exact hv
      · exact hnames x hx

theorem foldl_keeps_dotdot (es : List GoString) (hes : ∀ e ∈ es, Separator ∉ e) :
    ∀ stack, (∃ names k, stack = names ++ List.replicate (k + 1) dotdot ∧
        ∀ n ∈ names, validName n = true) →
      dotdot ∈ es.foldl (cleanStep false) stack := by
  induction es with
  | nil =>
    rintro stack ⟨names, k, rfl, _⟩
    simp [List.replicate_succ]
  | cons e es ih =>
    intro stack hs
    rw [List.foldl_cons]
    exact ih (fun x hx => hes x (List.mem_cons_of_mem _ hx)) _
      (cleanStep_keeps_dotdot stack e (hes e (List.mem_cons_self _ _)) hs)

/-- Cleaning the elements of a relative path on top of the stack of a rooted
path gives the elements the relative path has on its own, on top of that
stack, when the relative path never climbs with `..` above its start. -/
theorem foldl_cleanStep_onto (es : List GoString) (hes : ∀ e ∈ es, Separator ∉ e)
    (base : List GoString) :
    ∀ stack, (∀ n ∈ stack, validName n = true) →
      dotdot ∉ es.foldl (cleanStep false) stack →
      es.foldl (cleanStep true) (stack ++ base) = es.foldl (cleanStep false) stack ++ base := by
  induction es with
  | nil => intro stack _ _; rfl
  | cons e es ih =>
    intro stack hstack hno
    have hes2 : ∀ x ∈ es, Separator ∉ x := fun x hx => hes x (List.mem_cons_of_mem _ hx)
    rw [List.foldl_cons] at hno ⊢
    rw [List.foldl_cons]
    by_cases h1 : e = [] ∨ e = ['.']
    · have e1 : ∀ r st, cleanStep r st e = st := by
        intro r st
        simp only [cleanStep, if_pos h1]
      rw [e1] at hno ⊢
      rw [e1]
      exact ih hes2 stack hstack hno
    · by_cases h2 : e = dotdot
      · subst h2
        have hd : ¬ (dotdot = [] ∨ dotdot = ['.']) := by decide
        cases stack with
        | nil =>
          exfalso
          apply hno
          apply foldl_keeps_dotdot es hes2
          exact ⟨[], 0, by simp [cleanStep, dotdot], by simp⟩
        | cons n stack =>
          have hn : n ≠ dotdot := by
            intro h
            have := hstack n (List.mem_cons_self _ _)
            rw [h, dotdot_not_valid] at this
            exact absurd this (by simp)
          have e1 : cleanStep false (n :: stack) dotdot = stack := by
            simp only [cleanStep, if_neg hd, if_true, ne_eq, hn, not_false_eq_true]
          have e2 : cleanStep true (n :: stack ++ base) dotdot = stack ++ base := by
            simp only [cleanStep, if_neg hd, List.cons_append, if_true, ne_eq, hn,
              not_false_eq_true]
          rw [e1] at hno ⊢
          rw [e2]
          exact ih hes2 stack (fun x hx => hstack x (List.mem_cons_of_mem _ hx)) hno
      · have hv : validName e = true := by
          rw [validName_iff]
          exact ⟨fun h => h1 (Or.inl h), hes e (List.mem_cons_self _ _),
            fun h => h1 (Or.inr h), h2⟩
        rw [cleanStep_valid false _ e hv] at hno ⊢
        rw [cleanStep_valid true _ e hv]
        have := ih hes2 (e :: stack) (by
          intro x hx
          rcases List.mem_cons.mp hx with rfl | hx
          · exact hv
          · exact hstack x hx) hno
        simpa using this

/-- The elements of a rooted cleaned path are proper names. -/
theorem cleanElems_rooted_valid (p : GoString) (h : IsAbs p = true) :
    ∀ e ∈ cleanElems p, validName e = true := by
  obtain ⟨k, names, hk, hzero, hnames⟩ := cleanElems_normal p
  have := hzero h
  subst this
  rw [hk]
  simpa using hnames

/-- The elements of a relative path resolved against the working directory: those
of the working directory, then its own, when it does not start with `..`. -/
theorem cleanElems_Abs_rel (cwd p : GoString) (hcwd : IsAbs cwd = true)
    (hp : IsAbs p = false) (hno : dotdot ∉ cleanElems p) :
    cleanElems (Abs cwd p) = cleanElems cwd ++ cleanElems p := by
  have hne : cwd ≠ [] := by
    intro h
    rw [h] at hcwd
    exact absurd hcwd (by decide)
  unfold Abs
  rw [hp]
  simp only [Bool.false_eq_true, if_false]
  rw [Join_pair cwd p hne, (cleanElems_Clean _).2]
  unfold cleanElems at hno ⊢
  rw [IsAbs_append cwd _ hne, hcwd, splitSep_append_sep, List.foldl_append]
  rw [hp] at hno ⊢
  have hbase : ∀ n ∈ List.foldl (cleanStep true) [] (splitSep cwd), validName n = true := by
    intro n hn
    have := cleanElems_rooted_valid cwd hcwd n
    unfold cleanElems at this
    rw [hcwd] at this
    exact this (List.mem_reverse.mpr hn)
  have := foldl_cleanStep_onto (splitSep p) (splitSep_noSep p)
    (List.foldl (cleanStep true) [] (splitSep cwd)) [] (by simp)
    (by simpa using hno)
  simp only [List.nil_append] at this
  rw [this]
  simp

theorem cleanElems_Abs_abs (cwd p : GoString) (hp : IsAbs p = true) :
    cleanElems (Abs cwd p) = cleanElems p := by
  unfold Abs
  rw [hp]
  simp only [if_true]
  exact (cleanElems_Clean p).2

/-- For two absolute paths, and for two relative paths that do not start with
`..`, comparing the cleaned elements decides whether the one lies in the
other. -/
theorem lexInside_eq_liesInside (cwd dir path : GoString) (hcwd : IsAbs cwd = true)
    (hkind : (IsAbs dir = true ∧ IsAbs path = true) ∨
      (IsAbs dir = false ∧ IsAbs path = false ∧ dotdot ∉ cleanElems dir ∧
        dotdot ∉ cleanElems path)) :
    lexInside dir path = liesInside cwd dir path := by
  have hnodd : dotdot ∉ cleanElems path := by
    rcases hkind with ⟨_, h⟩ | ⟨_, _, _, h⟩
    · intro hmem
      have := cleanElems_rooted_valid path h dotdot hmem
      rw [dotdot_not_valid] at this
      exact absurd this (by simp)
    · exact h
  have hhead : ((cleanElems path).drop (cleanElems dir).length).head? ≠ some dotdot := by
    intro h
    apply hnodd
    have := List.mem_of_mem_drop (List.mem_of_mem_head? h)
    exact this
  rw [Bool.eq_iff_iff]
  simp only [lexInside, liesInside, decide_eq_true_eq]
  rcases hkind with ⟨h1, h2⟩ | ⟨h1, h2, h3, h4⟩
  · rw [cleanElems_Abs_abs cwd dir h1, cleanElems_Abs_abs cwd path h2, h1, h2]
    exact ⟨fun h => h.2.1, fun h => ⟨rfl, h, hhead⟩⟩
  · rw [cleanElems_Abs_rel cwd dir hcwd h1 h3, cleanElems_Abs_rel cwd path hcwd h2 h4, h1, h2,
      List.prefix_append_right_inj]
    exact ⟨fun h => h.2.1, fun h => ⟨rfl, h, hhead⟩⟩

/-- The elements of a path resolved against the working directory, for an
absolute path and for a relative path that does not start with `..`. -/
theorem cleanElems_Abs (cwd p : GoString) (hcwd : IsAbs cwd = true)
    (hno : dotdot ∉ cleanElems p) :
    cleanElems (Abs cwd p)
      = if IsAbs p = true then cleanElems p else cleanElems cwd ++ cleanElems p := by
  cases hp : IsAbs p with
  | true => simpa using cleanElems_Abs_abs cwd p hp
  | false => simpa using cleanElems_Abs_rel cwd p hcwd hp hno

/-- For two paths of the same kind without a leading `..`, the one lies in the
other, as resolved against the working directory, exactly when its cleaned
elements start with those of the other; and both name the same place exactly
when their cleaned elements agree. -/
theorem liesInside_iff_elems (cwd a b : GoString) (hcwd : IsAbs cwd = true)
    (hkind : IsAbs a = IsAbs b) (ha : dotdot ∉ cleanElems a) (hb : dotdot ∉ cleanElems b) :
    (liesInside cwd a b = true ↔ cleanElems a <+: cleanElems b) ∧
    (Abs cwd a = Abs cwd b → cleanElems a = cleanElems b) := by
  have h1 := cleanElems_Abs cwd a hcwd ha
  have h2 := cleanElems_Abs cwd b hcwd hb
  rw [← hkind] at h2
  constructor
  · simp only [liesInside, decide_eq_true_eq]
    rw [h1, h2]
    cases IsAbs a with
    | true => simp
    | false => simp [List.prefix_append_right_inj]
  · intro heq
    have := congrArg cleanElems heq
    rw [h1, h2] at this
    cases hA : IsAbs a with
    | true => simpa [hA] using this
    | false => simpa [hA] using this

/-- Every directory `organizeOnce` reads and every path it calls the move on is of
the kind of the source, and does not start with `..` when the source does not. -/
theorem organizeOnce_visited_kind {μ : Type}
    (move : GoString → GoString → Bool → μ → μ × Option GoError)
    (srcDir dstDir : GoString) (noRecursive dryRun : Bool) (root : Except GoError Node) (m : μ)
    (hsrc : srcDir ≠ []) (hs : dotdot ∉ cleanElems srcDir)
    (hwf : ∀ node, root = Except.ok node → wellFormed node = true) :
    (∀ d ∈ (organizeOnce move srcDir dstDir noRecursive dryRun root m).1.read,
      IsAbs d = IsAbs srcDir ∧ dotdot ∉ cleanElems d) ∧
    (∀ p ∈ (organizeOnce move srcDir dstDir noRecursive dryRun root m).1.user.calls,
      IsAbs p = IsAbs srcDir ∧ dotdot ∉ cleanElems p) := by
  apply organizeOnce_preserves move srcDir dstDir noRecursive dryRun root m
    (fun path node => path ≠ [] ∧ wellFormed node = true ∧ IsAbs path = IsAbs srcDir ∧
      dotdot ∉ cleanElems path)
    (fun s => (∀ d ∈ s.read, IsAbs d = IsAbs srcDir ∧ dotdot ∉ cleanElems d) ∧
      (∀ p ∈ s.user.calls, IsAbs p = IsAbs srcDir ∧ dotdot ∉ cleanElems p))
  · intro path readErr entries name child hq _ _ hmem
    obtain ⟨hp, hwfn, habs, hdd⟩ := hq
    rw [wellFormed] at hwfn
    obtain ⟨hname, hchildwf⟩ := wellFormedEntries_mem entries hwfn name child hmem
    refine ⟨Join_child_ne_nil path name hp, hchildwf,
      by rw [IsAbs_Join_child path name hp, habs], ?_⟩
    rw [cleanElems_Join_child path name hp hname]
    intro hin
    rcases List.mem_append.mp hin with h | h
    · exact hdd h
    · rw [← List.mem_singleton.mp h, dotdot_not_valid] at hname
      exact absurd hname (by simp)
  · intro path st read hq hi
    refine ⟨hi.1, ?_⟩
    have h := (organizeVisit_file move srcDir dstDir noRecursive dryRun path st).2
    simp only at h ⊢
    rw [h]
    by_cases hin : insideDir dstDir path = true
    · rw [if_pos hin]; exact hi.2
    · rw [if_neg hin]
      intro p hp
      rcases List.mem_append.mp hp with hp | hp
      · exact hi.2 p hp
      · rw [List.mem_singleton.mp hp]
        exact ⟨hq.2.2.1, hq.2.2.2⟩
  · intro path readErr entries st read hq hi _ _
    refine ⟨?_, hi.2⟩
    intro d hd
    rcases List.mem_append.mp hd with hd | hd
    · exact hi.1 d hd
    · rw [List.mem_singleton.mp hd]
      exact ⟨hq.2.2.1, hq.2.2.2⟩
  · intro node hnode
    exact ⟨hsrc, hwf node hnode, rfl, hs⟩
  · simp



/-- Whatever the tree, `organizeOnce` reads no directory whose cleaned path is the
cleaned destination, and calls the move on no path `insideDir` accepts. -/
theorem organizeOnce_guards {μ : Type}
    (move : GoString → GoString → Bool → μ → μ × Option GoError)
    (srcDir dstDir : GoString) (noRecursive dryRun : Bool) (root : Except GoError Node) (m : μ) :
    (∀ d ∈ (organizeOnce move srcDir dstDir noRecursive dryRun root m).1.read,
      Clean d ≠ Clean dstDir) ∧
    (∀ p ∈ (organizeOnce move srcDir dstDir noRecursive dryRun root m).1.user.calls,
      insideDir dstDir p = false) := by
  apply organizeOnce_preserves move srcDir dstDir noRecursive dryRun root m (fun _ _ => True)
    (fun s => (∀ d ∈ s.read, Clean d ≠ Clean dstDir) ∧
      (∀ p ∈ s.user.calls, insideDir dstDir p = false))
  · intros; trivial
  · intro path st read _ hi
    refine ⟨hi.1, ?_⟩
    have h := (organizeVisit_file move srcDir dstDir noRecursive dryRun path st).2
    simp only at h ⊢
    rw [h]
    by_cases hin : insideDir dstDir path = true
    · rw [if_pos hin]; exact hi.2
    · rw [if_neg hin]
      intro p hp
      rcases List.mem_append.mp hp with hp | hp
      · exact hi.2 p hp
      · rw [List.mem_singleton.mp hp]
        simpa using hin
  · intro path readErr entries st read _ hi h1 _
    refine ⟨?_, hi.2⟩
    intro d hd
    rcases List.mem_append.mp hd with hd | hd
    · exact hi.1 d hd
    · rw [List.mem_singleton.mp hd]
      exact h1
  · intros; trivial
  · simp

/-- When the source is not below the destination, nothing that `organizeOnce` reads
or moves is the destination or lies below it. -/
theorem organizeOnce_outside {μ : Type}
    (move : GoString → GoString → Bool → μ → μ × Option GoError)
    (srcDir dstDir : GoString) (noRecursive dryRun : Bool) (root : Except GoError Node) (m : μ)
    (hsrc : srcDir ≠ []) (hkind : IsAbs srcDir = IsAbs dstDir)
    (hwf : ∀ node, root = Except.ok node → wellFormed node = true)
    (hnotBelow : ¬ (cleanElems dstDir <+: cleanElems srcDir ∧
      cleanElems dstDir ≠ cleanElems srcDir)) :
    (∀ d ∈ (organizeOnce move srcDir dstDir noRecursive dryRun root m).1.read,
      ¬ cleanElems dstDir <+: cleanElems d) ∧
    (∀ p ∈ (organizeOnce move srcDir dstDir noRecursive dryRun root m).1.user.calls,
      ¬ cleanElems dstDir <+: cleanElems p) := by
  apply organizeOnce_preserves move srcDir dstDir noRecursive dryRun root m
    (fun path node => path ≠ [] ∧ IsAbs path = IsAbs dstDir ∧ wellFormed node = true ∧
      ¬ (cleanElems dstDir <+: cleanElems path ∧ cleanElems dstDir ≠ cleanElems path))
    (fun s => (∀ d ∈ s.read, ¬ cleanElems dstDir <+: cleanElems d) ∧
      (∀ p ∈ s.user.calls, ¬ cleanElems dstDir <+: cleanElems p))
  · intro path readErr entries name child hq hne _ hmem
    obtain ⟨hp, habs, hwfn, hnb⟩ := hq
    rw [wellFormed] at hwfn
    obtain ⟨hname, hchildwf⟩ := wellFormedEntries_mem entries hwfn name child hmem
    refine ⟨Join_child_ne_nil path name hp, by rw [IsAbs_Join_child path name hp, habs],
      hchildwf, ?_⟩
    rw [cleanElems_Join_child path name hp hname]
    rintro ⟨hpre, hneq⟩
    have hne2 : cleanElems dstDir ≠ cleanElems path := by
      intro h
      exact hne (Clean_congr path dstDir habs h.symm)
    rcases List.prefix_concat_iff.mp (by simpa using hpre) with h | h
    · exact hneq (by simpa using h)
    · exact hnb ⟨h, hne2⟩
  · intro path st read hq hi
    obtain ⟨hp, habs, _, hnb⟩ := hq
    refine ⟨hi.1, ?_⟩
    have h := (organizeVisit_file move srcDir dstDir noRecursive dryRun path st).2
    simp only at h ⊢
    rw [h]
    by_cases hin : insideDir dstDir path = true
    · rw [if_pos hin]; exact hi.2
    · rw [if_neg hin]
      intro p hp2
      rcases List.mem_append.mp hp2 with hp2 | hp2
      · exact hi.2 p hp2
      · rw [List.mem_singleton.mp hp2]
        intro hpre
        have heq : cleanElems dstDir = cleanElems path := by
          by_contra hneq
          exact hnb ⟨hpre, hneq⟩
        apply hin
        rw [insideDir_iff]
        exact ⟨habs.symm, [], by simp [heq], by simp⟩
  · intro path readErr entries st read hq hi hne _
    obtain ⟨hp, habs, _, hnb⟩ := hq
    refine ⟨?_, hi.2⟩
    intro d hd
    rcases List.mem_append.mp hd with hd | hd
    · exact hi.1 d hd
    · rw [List.mem_singleton.mp hd]
      intro hpre
      have hne2 : cleanElems dstDir ≠ cleanElems path := by
        intro h
        exact hne (Clean_congr path dstDir habs h.symm)
      exact hnb ⟨hpre, hne2⟩
  · intro node hnode
    exact ⟨hsrc, hkind, hwf node hnode, hnotBelow⟩
  · simp

/-- C7, the claim refuted. Run in `/home/u/dl` with the absolute source
`/home/u/dl` and the default relative destination `./organized`, `organizeOnce`
reads the destination directory and passes `organized/pics/old.jpg`, a file
inside the destination, to the move.  The same happens with the relative source
`.` and the destination spelled `../dl/organized`. -/
theorem organizeOnce_enters_relative_destination :
    (liesInside "/home/u/dl".toList "./organized".toList "/home/u/dl/organized".toList = true ∧
      "/home/u/dl/organized".toList ∈
        (organizeOnce moveOk "/home/u/dl".toList "./organized".toList false false
          (Except.ok downloadsTree) ()).1.read ∧
      liesInside "/home/u/dl".toList "./organized".toList
        "/home/u/dl/organized/pics/old.jpg".toList = true ∧
      "/home/u/dl/organized/pics/old.jpg".toList ∈
        (organizeOnce moveOk "/home/u/dl".toList "./organized".toList false false
          (Except.ok downloadsTree) ()).1.user.calls) ∧
    (liesInside "/home/u/dl".toList "../dl/organized".toList "organized".toList = true ∧
      "organized".toList ∈
        (organizeOnce moveOk ".".toList "../dl/organized".toList false false
          (Except.ok downloadsTree) ()).1.read ∧
      liesInside "/home/u/dl".toList "../dl/organized".toList
        "organized/pics/old.jpg".toList = true ∧
      "organized/pics/old.jpg".toList ∈
        (organizeOnce moveOk ".".toList "../dl/organized".toList false false
          (Except.ok downloadsTree) ()).1.user.calls) := by
  decide

/-- The slip of line 69 at work: run in `/home/u`, the source `organized/..x` lies
in the destination `organized`, and its file `new.jpg` is passed to the move
although it lies in the destination. -/
theorem organizeOnce_moves_below_dotdot_name :
    liesInside "/home/u".toList "organized".toList "organized/..x/new.jpg".toList = true ∧
    slipFree "organized".toList "organized/..x/new.jpg".toList = false ∧
    "organized/..x/new.jpg".toList ∈
      (organizeOnce moveOk "organized/..x".toList "organized".toList false false
        (Except.ok downloadsTree) ()).1.user.calls := by
  decide

/-- C7, amended. Let the source and the destination be both absolute, or both
relative without a leading `..`, in a tree whose entries have proper names; paths
are resolved against the working directory `cwd`.  (1) `organizeOnce` never reads
the destination directory itself.  (2) When the source does not lie strictly
inside the destination, no directory it reads and no file it passes to
`moveFileWithUniqueName` is the destination or lies inside it; this covers a
destination nested in the source.  (3) In every case, no file it passes to
`moveFileWithUniqueName` lies inside the destination, provided the element of the
file path right below the destination does not begin with two dots. -/
theorem organizeOnce_skips_destination {μ : Type}
    (move : GoString → GoString → Bool → μ → μ × Option GoError)
    (cwd srcDir dstDir : GoString) (noRecursive dryRun : Bool) (root : Except GoError Node)
    (m : μ) (hcwd : IsAbs cwd = true) (hsrc : srcDir ≠ [])
    (hkind : IsAbs srcDir = IsAbs dstDir)
    (hs : dotdot ∉ cleanElems srcDir) (hd : dotdot ∉ cleanElems dstDir)
    (hwf : ∀ node, root = Except.ok node → wellFormed node = true) :
    (∀ d ∈ (organizeOnce move srcDir dstDir noRecursive dryRun root m).1.read,
      Abs cwd d ≠ Abs cwd dstDir) ∧
    (¬ (liesInside cwd dstDir srcDir = true ∧ Abs cwd srcDir ≠ Abs cwd dstDir) →
      (∀ d ∈ (organizeOnce move srcDir dstDir noRecursive dryRun root m).1.read,
        liesInside cwd dstDir d = false) ∧
      (∀ p ∈ (organizeOnce move srcDir dstDir noRecursive dryRun root m).1.user.calls,
        liesInside cwd dstDir p = false)) ∧
    (∀ p ∈ (organizeOnce move srcDir dstDir noRecursive dryRun root m).1.user.calls,
      slipFree dstDir p = true → liesInside cwd dstDir p = false) := by
  obtain ⟨hguardR, hguardC⟩ := organizeOnce_guards move srcDir dstDir noRecursive dryRun root m
  obtain ⟨hkR, hkC⟩ := organizeOnce_visited_kind move srcDir dstDir noRecursive dryRun root m
    hsrc hs hwf
  refine ⟨?_, ?_, ?_⟩
  · intro d hdm heq
    obtain ⟨hka, hkd⟩ := hkR d hdm
    have hel := (liesInside_iff_elems cwd d dstDir hcwd (by rw [hka, hkind]) hkd hd).2 heq
    exact hguardR d hdm (Clean_congr d dstDir (by rw [hka, hkind]) hel)
  · intro hnb
    have hlex : ¬ (cleanElems dstDir <+: cleanElems srcDir ∧
        cleanElems dstDir ≠ cleanElems srcDir) := by
      rintro ⟨hpre, hne⟩
      apply hnb
      refine ⟨(liesInside_iff_elems cwd dstDir srcDir hcwd hkind.symm hd hs).1.mpr hpre, ?_⟩
      intro heq
      exact hne ((liesInside_iff_elems cwd srcDir dstDir hcwd hkind hs hd).2 heq).symm
    obtain ⟨hoR, hoC⟩ := organizeOnce_outside move srcDir dstDir noRecursive dryRun root m
      hsrc hkind hwf hlex
    constructor
    · intro d hdm
      obtain ⟨hka, hkd⟩ := hkR d hdm
      have := (liesInside_iff_elems cwd dstDir d hcwd (by rw [hka, hkind]) hd hkd).1
      cases hl : liesInside cwd dstDir d with
      | false => rfl
      | true => exact absurd (this.mp hl) (hoR d hdm)
    · intro p hpm
      obtain ⟨hka, hkd⟩ := hkC p hpm
      have := (liesInside_iff_elems cwd dstDir p hcwd (by rw [hka, hkind]) hd hkd).1
      cases hl : liesInside cwd dstDir p with
      | false => rfl
      | true => exact absurd (this.mp hl) (hoC p hpm)
  · intro p hpm hfree
    obtain ⟨hka, hkd⟩ := hkC p hpm
    have hk2 : IsAbs dstDir = IsAbs p := by rw [hka, hkind]
    have h1 := hguardC p hpm
    rw [insideDir_eq_lexInside dstDir p hk2 hfree] at h1
    rw [← lexInside_eq_liesInside cwd dstDir p hcwd (by
      cases hA : IsAbs dstDir with
      | true => exact Or.inl ⟨rfl, by rw [← hk2, hA]⟩
      | false => exact Or.inr ⟨rfl, by rw [← hk2, hA], hd, hkd⟩)]
    exact h1

/-- The default source `.` and destination `./organized`, run in `/home/u/dl`:
no directory read and no file passed to the move lies inside the destination. -/
theorem organizeOnce_skips_destination_witness :
    (organizeOnce moveOk ".".toList "./organized".toList false false
        (Except.ok downloadsTree) ()).1.user.calls
      = ["new.jpg".toList, "sub/x.txt".toList] ∧
    (∀ d ∈ (organizeOnce moveOk ".".toList "./organized".toList false false
        (Except.ok downloadsTree) ()).1.read,
      liesInside "/home/u/dl".toList "./organized".toList d = false) ∧
    (∀ p ∈ (organizeOnce moveOk ".".toList "./organized".toList false false
        (Except.ok downloadsTree) ()).1.user.calls,
      liesInside "/home/u/dl".toList "./organized".toList p = false) :=
  ⟨by decide,
    (organizeOnce_skips_destination moveOk "/home/u/dl".toList ".".toList
      "./organized".toList false false (Except.ok downloadsTree) () (by decide) (by decide)
      (by decide) (by decide) (by decide) (fun node h => by cases h; decide)).2.1
      (by decide)⟩



/-- C8. With `noRecursive` set and a source root that is a directory whose entries
have proper names, `organizeOnce` reads no directory but the source root, whether
or not a subdirectory is the destination, and passes to
`moveFileWithUniqueName` only paths `filepath.Join(srcDir, name)` of entries of the
root that are not directories. -/
theorem organizeOnce_noRecursive_top_level {μ : Type}
    (move : GoString → GoString → Bool → μ → μ × Option GoError)
    (srcDir dstDir : GoString) (dryRun : Bool) (readErr : Option GoError)
    (entries : List (GoString × Node)) (m : μ)
    (hnames : ∀ e ∈ entries, validName e.1 = true) :
    (∀ d ∈ (organizeOnce move srcDir dstDir true dryRun
        (Except.ok (Node.dir readErr entries)) m).1.read, d = srcDir) ∧
    (∀ p ∈ (organizeOnce move srcDir dstDir true dryRun
        (Except.ok (Node.dir readErr entries)) m).1.user.calls,
      ∃ name, (name, Node.file) ∈ entries ∧ p = Join [srcDir, name]) := by
  apply organizeOnce_preserves move srcDir dstDir true dryRun
    (Except.ok (Node.dir readErr entries)) m
    (fun path node => (path = srcDir ∧ node = Node.dir readErr entries) ∨
      (∃ name, (name, node) ∈ entries ∧ path = Join [srcDir, name]))
    (fun s => (∀ d ∈ s.read, d = srcDir) ∧
      (∀ p ∈ s.user.calls, ∃ name, (name, Node.file) ∈ entries ∧ p = Join [srcDir, name]))
  · intro path re es name child hq _ hrec hmem
    have hclean : Clean path = Clean srcDir := by
      by_contra h
      exact hrec ⟨rfl, h⟩
    rcases hq with ⟨hp, hnode⟩ | ⟨n, hn, hp⟩
    · simp only [Node.dir.injEq] at hnode
      right
      exact ⟨name, by rw [← hnode.2]; exact hmem, by rw [hp]⟩
    · rw [hp] at hclean
      exact absurd hclean (Clean_Join_child_ne srcDir n (hnames (n, _) hn))
  · intro path st read hq hi
    refine ⟨hi.1, ?_⟩
    have h := (organizeVisit_file move srcDir dstDir true dryRun path st).2
    simp only at h ⊢
    rw [h]
    by_cases hin : insideDir dstDir path = true
    · rw [if_pos hin]; exact hi.2
    · rw [if_neg hin]
      intro p hp
      rcases List.mem_append.mp hp with hp | hp
      · exact hi.2 p hp
      · rw [List.mem_singleton.mp hp]
        rcases hq with ⟨_, hnode⟩ | ⟨n, hn, hpath⟩
        · exact absurd hnode (by simp)
        · exact ⟨n, hn, hpath⟩
  · intro path re es st read hq hi _ hrec
    have hclean : Clean path = Clean srcDir := by
      by_contra h
      exact hrec ⟨rfl, h⟩
    refine ⟨?_, hi.2⟩
    intro d hd
    rcases List.mem_append.mp hd with hd | hd
    · exact hi.1 d hd
    · rw [List.mem_singleton.mp hd]
      rcases hq with ⟨hp, _⟩ | ⟨n, hn, hp⟩
      · exact hp
      · rw [hp] at hclean
        exact absurd hclean (Clean_Join_child_ne srcDir n (hnames (n, _) hn))
  · intro node hnode
    left
    exact ⟨rfl, (Except.ok.inj hnode).symm⟩
  · simp

/-- With `noRecursive` only `new.jpg` is passed to the move and only the root is read. -/
theorem organizeOnce_noRecursive_top_level_witness :
    (organizeOnce moveOk ".".toList "./organized".toList true false
        (Except.ok downloadsTree) ()).1.user.calls = ["new.jpg".toList] ∧
    (∀ d ∈ (organizeOnce moveOk ".".toList "./organized".toList true false
        (Except.ok downloadsTree) ()).1.read, d = ".".toList) :=
  ⟨by decide,
    (organizeOnce_noRecursive_top_level moveOk ".".toList "./organized".toList false none
      downloadsEntries () (by decide)).1⟩



mutual
/-- On a tree in which no directory the walk enters fails to be read, the walk of
`organizeOnce` returns no error and has called the move on the eligible files,
in order, whatever the move did. -/
theorem walkDir_organize_ok {μ : Type}
    (move : GoString → GoString → Bool → μ → μ × Option GoError)
    (srcDir dstDir : GoString) (noRecursive dryRun : Bool) :
    ∀ (node : Node) (path : GoString) (s : WalkState (OrgState μ)),
      readErrMet srcDir dstDir noRecursive path node = false →
      (walkDir (organizeVisit move srcDir dstDir noRecursive dryRun) path node s).2 = none ∧
      (walkDir (organizeVisit move srcDir dstDir noRecursive dryRun) path node s).1.user.calls
        = s.user.calls ++ eligibleFiles srcDir dstDir noRecursive path node
  | Node.file, path, s, _ => by
    obtain ⟨h1, h2⟩ := organizeVisit_file move srcDir dstDir noRecursive dryRun path s.user
    rw [walkDir, eligibleFiles]
    refine ⟨h1, ?_⟩
    simp only
    rw [h2]
    by_cases hin : insideDir dstDir path = true
    · simp [hin]
    · simp [hin]
  | Node.dir readErr entries, path, s, hmet => by
    rw [walkDir, organizeVisit_dir, eligibleFiles]
    rw [readErrMet] at hmet
    by_cases h1 : Clean path = Clean dstDir
    · simp [h1]
    · rw [if_neg h1] at hmet ⊢
      by_cases h2 : noRecursive = true ∧ Clean path ≠ Clean srcDir
      · rw [if_pos h2]
        simp [h1, h2]
      · rw [if_neg h2] at hmet ⊢
        simp only [Bool.or_eq_false_iff] at hmet
        have hre : readErr = none := by
          cases readErr with
          | none => rfl
          | some e => exact absurd hmet.1 (by simp)
        subst hre
        simp only [if_neg h1, if_neg h2]
        exact walkEntries_organize_ok move srcDir dstDir noRecursive dryRun entries path _ hmet.2
/-- The same for the loop over the entries of a directory. -/
theorem walkEntries_organize_ok {μ : Type}
    (move : GoString → GoString → Bool → μ → μ × Option GoError)
    (srcDir dstDir : GoString) (noRecursive dryRun : Bool) :
    ∀ (entries : List (GoString × Node)) (path : GoString) (s : WalkState (OrgState μ)),
      readErrMetEntries srcDir dstDir noRecursive path entries = false →
      (walkEntries (organizeVisit move srcDir dstDir noRecursive dryRun) path entries s).2
        = none ∧
      (walkEntries (organizeVisit move srcDir dstDir noRecursive dryRun) path entries
          s).1.user.calls
        = s.user.calls ++ eligibleEntries srcDir dstDir noRecursive path entries
  | [], path, s, _ => by
    rw [walkEntries, eligibleEntries]
    simp
  | (name, d1) :: rest, path, s, hmet => by
    rw [readErrMetEntries] at hmet
    simp only [Bool.or_eq_false_iff] at hmet
    obtain ⟨h1, h2⟩ := walkDir_organize_ok move srcDir dstDir noRecursive dryRun d1
      (Join [path, name]) s hmet.1
    rw [walkEntries, eligibleEntries]
    rcases hw : walkDir (organizeVisit move srcDir dstDir noRecursive dryRun)
      (Join [path, name]) d1 s with ⟨s1, r⟩
    rw [hw] at h1 h2
    simp only at h1 h2
    subst h1
    simp only
    obtain ⟨h3, h4⟩ := walkEntries_organize_ok move srcDir dstDir noRecursive dryRun rest path s1
      hmet.2
    refine ⟨h3, ?_⟩
    rw [h4, h2, List.append_assoc]
end

/-- C9. When the source root is found and no directory the walk enters fails to be
read, `organizeOnce` returns no error and has invoked the per-file pipeline on
every eligible file, in order, whatever the calls of `moveFileWithUniqueName`
did and returned; and when `organizeOnce` returns an error, it is the error of
finding the root or a directory of the walk failed to be read. -/
theorem organizeOnce_best_effort {μ : Type}
    (move : GoString → GoString → Bool → μ → μ × Option GoError)
    (srcDir dstDir : GoString) (noRecursive dryRun : Bool) (root : Except GoError Node) (m : μ) :
    (∀ node, root = Except.ok node →
      readErrMet srcDir dstDir noRecursive srcDir node = false →
      (organizeOnce move srcDir dstDir noRecursive dryRun root m).2 = none ∧
      (organizeOnce move srcDir dstDir noRecursive dryRun root m).1.user.calls
        = eligibleFiles srcDir dstDir noRecursive srcDir node) ∧
    (∀ e, (organizeOnce move srcDir dstDir noRecursive dryRun root m).2 = some e →
      root = Except.error e ∨
        ∃ node, root = Except.ok node ∧
          readErrMet srcDir dstDir noRecursive srcDir node = true) := by
  have hok : ∀ node, root = Except.ok node →
      readErrMet srcDir dstDir noRecursive srcDir node = false →
      (organizeOnce move srcDir dstDir noRecursive dryRun root m).2 = none ∧
      (organizeOnce move srcDir dstDir noRecursive dryRun root m).1.user.calls
        = eligibleFiles srcDir dstDir noRecursive srcDir node := by
    intro node hroot hmet
    subst hroot
    obtain ⟨h1, h2⟩ := walkDir_organize_ok move srcDir dstDir noRecursive dryRun node srcDir
      ⟨⟨m, [], []⟩, []⟩ hmet
    unfold organizeOnce WalkDir
    rcases hw : walkDir (organizeVisit move srcDir dstDir noRecursive dryRun) srcDir node
      ⟨⟨m, [], []⟩, []⟩ with ⟨s1, r⟩
    rw [hw] at h1 h2
    simp only at h1 h2
    subst h1
    simp only [hw]
    exact ⟨trivial, by simpa using h2⟩
  refine ⟨hok, ?_⟩
  intro e he
  cases root with
  | error e0 =>
    left
    unfold organizeOnce WalkDir at he
    simp only [organizeVisit_err, Option.some.injEq] at he
    rw [he]
  | ok node =>
    right
    refine ⟨node, rfl, ?_⟩
    by_contra hmet
    have := (hok node rfl (by simpa using hmet)).1
    rw [this] at he
    exact absurd he (by simp)

/-- Every call of the move fails: the walk still returns no error and has called
the move on both eligible files. -/
theorem organizeOnce_best_effort_witness :
    (organizeOnce moveFail ".".toList "./organized".toList false false
        (Except.ok downloadsTree) ()).2 = none ∧
      (organizeOnce moveFail ".".toList "./organized".toList false false
        (Except.ok downloadsTree) ()).1.user.calls
        = ["new.jpg".toList, "sub/x.txt".toList] :=
  ⟨((organizeOnce_best_effort moveFail ".".toList "./organized".toList false false
      (Except.ok downloadsTree) ()).1 downloadsTree rfl (by decide)).1,
    by decide⟩



/-- C10, the claim refuted. In the working directory `/home/u`, the file
`organized/..name.jpg` lies in the directory `organized`, and so does
`/home/u/organized/a.jpg`; `insideDir` returns false for both. -/
theorem insideDir_misses_inside_paths :
    liesInside "/home/u".toList "organized".toList "organized/..name.jpg".toList = true ∧
    insideDir "organized".toList "organized/..name.jpg".toList = false ∧
    liesInside "/home/u".toList "organized".toList "/home/u/organized/a.jpg".toList = true ∧
    insideDir "organized".toList "/home/u/organized/a.jpg".toList = false := by
  decide

/-- C10, amended. The function `insideDir` compares the cleaned paths element by
element and does not resolve them against the working directory.  It returns
false when exactly one of `dir` and `path` is absolute.  When both are absolute
or both are relative, and the element of `path` right below `dir` does not begin
with two dots (unless it is `..`), it returns true exactly when the elements of
`dir` start the elements of `path` and `path` does not climb out again with `..`;
for two absolute paths, and for two relative paths without a leading `..`, that
is exactly when `path` is `dir` itself or lies in the subtree below `dir`. -/
theorem insideDir_lexical (dir path : GoString) :
    (IsAbs dir ≠ IsAbs path → insideDir dir path = false) ∧
    (IsAbs dir = IsAbs path → slipFree dir path = true →
      insideDir dir path = lexInside dir path ∧
      ∀ cwd, IsAbs cwd = true →
        ((IsAbs dir = true ∧ IsAbs path = true) ∨
          (IsAbs dir = false ∧ IsAbs path = false ∧ dotdot ∉ cleanElems dir ∧
            dotdot ∉ cleanElems path)) →
        insideDir dir path = liesInside cwd dir path) := by
  constructor
  · intro hne
    by_contra h
    have h2 : insideDir dir path = true := by simpa using h
    exact hne ((insideDir_iff dir path).mp h2).1
  · intro hkind hfree
    have h := insideDir_eq_lexInside dir path hkind hfree
    refine ⟨h, ?_⟩
    intro cwd hcwd hk
    rw [h]
    exact lexInside_eq_liesInside cwd dir path hcwd hk

/-- Two relative paths below the working directory `/home/u`. -/
theorem insideDir_lexical_witness :
    insideDir "organized".toList "organized/pics/a.jpg".toList = true ∧
      insideDir "organized".toList "src/a.jpg".toList
        = liesInside "/home/u".toList "organized".toList "src/a.jpg".toList :=
  ⟨by decide,
    ((insideDir_lexical "organized".toList "src/a.jpg".toList).2 (by decide) (by decide)).2
      "/home/u".toList (by decide) (Or.inr ⟨by decide, by decide, by decide, by decide⟩)⟩
